import Mathlib

/-!
Verification of the audio-text-time synchronization engine of the
video_assembler repository.

The development shallowly embeds four components:

* the Offset Detector (`find_audio_offset` in `src/engines/ffmpeg_engine.py`),
* the Frame-Quantized Duration Allocator (the frame computation in
  `ffmpeg_engine.run`, lines 577-616),
* the Character-Level Force Aligner (`_step2_force_alignment` in
  `src/services/subtitle_service.py`, identical to `step2_force_alignment`
  in `src/generate_subtitles.py`), together with the portion of Python's
  `difflib.SequenceMatcher` it relies on (`autojunk=False`, no junk
  predicate), and
* the Subtitle Timestamp Mapper (`_step4_align_timestamps` in
  `src/services/subtitle_service.py`).

Python floats are modelled as exact rationals (`ℚ`); Python strings as
`List Char`; Python `dict` states of the difflib dynamic program as total
functions `Nat → Nat` defaulting to `0` (mirroring `dict.get(k, 0)`).
Loops are modelled with explicit fuel chosen so that the fuel can run out
only at a state where the Python loop condition is false as well, so the
semantics agree exactly.
-/

/-- Python `round` on a rational: round half to even (banker's rounding),
as `round()` behaves on Python 3 numbers. -/
def py_round (x : ℚ) : ℤ :=
  let f := ⌊x⌋
  let r := x - (f : ℚ)
  if r < 1/2 then f
  else if 1/2 < r then f + 1
  else if f % 2 = 0 then f else f + 1

/-- Python `int()` applied to a number: truncation toward zero. -/
def py_int_trunc (x : ℚ) : ℤ :=
  if 0 ≤ x then ⌊x⌋ else -⌊-x⌋

/-- One word-level timestamp returned by the transcriber:
`{"word": ..., "start": ..., "end": ...}`. -/
structure WordTs where
  word : List Char
  start : ℚ
  «end» : ℚ
deriving DecidableEq, Repr

/-- One character-level timestamp `{"char": ..., "start": ..., "end": ...}`
as produced by the force aligner and consumed by the subtitle mapper. -/
structure CharTs where
  char : Char
  start : ℚ
  «end» : ℚ
deriving DecidableEq, Repr

/-- Default element used for out-of-range list indexing in the embedding.
Every access in the development is proved (or checked concretely) to be
in range, matching the Python code, which never indexes out of range. -/
def dCT : CharTs := ⟨' ', 0, 0⟩

/-! ### difflib.SequenceMatcher (autojunk=False, isjunk=None)

`_step2_force_alignment` calls
`difflib.SequenceMatcher(None, whisper_str, script_str, autojunk=False)`.
With no junk predicate and `autojunk=False`, `b2j` maps each character of
`b` to the increasing list of all its positions in `b`, and both junk
sets are empty, so the two junk-extension loops of `find_longest_match`
never run.  We embed exactly the remaining algorithm. -/

/-- The sequence of positions `j` iterated by
`for j in b2j.get(a[i], nothing)` after the `if j < blo: continue` /
`if j >= bhi: break` filtering: all positions of `c` in `b` within
`[blo, bhi)`, in increasing order (the `break` is equivalent to a filter
because the position list is increasing). -/
def flm_js (b : List Char) (blo bhi : Nat) (c : Char) : List Nat :=
  (List.range b.length).filter fun j =>
    decide (blo ≤ j) && decide (j < bhi) && (b.getD j ' ' == c)

/-- The new `j2len` dictionary built while scanning row `i` of the
dynamic program: `newj2len[j] = j2len.get(j-1, 0) + 1` for each matching
`j` in the window, every other key absent (i.e. `0`).  `prev` is the
previous row; Python's `j2len.get(j-1, 0)` at `j = 0` reads key `-1`,
which is absent, hence the `if j = 0` guard. -/
def flm_row (prev : Nat → Nat) (b : List Char) (blo bhi : Nat) (c : Char) :
    Nat → Nat :=
  fun j =>
    if blo ≤ j ∧ j < bhi ∧ b.getD j ' ' = c then
      (if j = 0 then 0 else prev (j - 1)) + 1
    else 0

/-- The update of `(besti, bestj, bestsize)` while scanning row `i`:
for each `j` in order, `k = j2len.get(j-1, 0) + 1`, and if `k > bestsize`
then `besti, bestj, bestsize = i-k+1, j-k+1, k`. -/
def flm_best (prev : Nat → Nat) (i : Nat) (js : List Nat)
    (st : Nat × Nat × Nat) : Nat × Nat × Nat :=
  js.foldl
    (fun st j =>
      let k := (if j = 0 then 0 else prev (j - 1)) + 1
      if st.2.2 < k then (i + 1 - k, j + 1 - k, k) else st)
    st

/-- The full dynamic-programming loop `for i in range(alo, ahi)` of
`find_longest_match`, threading the `j2len` row and the best triple. -/
def flm_dp (a b : List Char) (alo ahi blo bhi : Nat) : Nat × Nat × Nat :=
  ((List.range' alo (ahi - alo)).foldl
    (fun (acc : (Nat → Nat) × (Nat × Nat × Nat)) i =>
      (flm_row acc.1 b blo bhi (a.getD i ' '),
       flm_best acc.1 i (flm_js b blo bhi (a.getD i ' ')) acc.2))
    (fun _ => 0, (alo, blo, 0))).2

/-- The first extension loop of `find_longest_match`:
`while besti > alo and bestj > blo and a[besti-1] == b[bestj-1]:` extend
left.  The fuel equals `besti`; it decreases by one exactly when `besti`
does, so fuel `0` implies `besti = 0`, where the Python condition
`besti > alo` is false as well. -/
def flm_extend_lo (a b : List Char) (alo blo : Nat) :
    Nat → Nat × Nat × Nat → Nat × Nat × Nat
  | 0, st => st
  | fuel + 1, (bi, bj, bs) =>
    if alo < bi ∧ blo < bj ∧ a.getD (bi - 1) ' ' = b.getD (bj - 1) ' ' then
      flm_extend_lo a b alo blo fuel (bi - 1, bj - 1, bs + 1)
    else (bi, bj, bs)

/-- The second extension loop of `find_longest_match`:
`while besti+bestsize < ahi and bestj+bestsize < bhi and
a[besti+bestsize] == b[bestj+bestsize]:` extend right.  The fuel equals
`ahi - (besti + bestsize)`, which again reaches `0` only when the Python
condition is false. -/
def flm_extend_hi (a b : List Char) (ahi bhi bi bj : Nat) :
    Nat → Nat → Nat
  | 0, bs => bs
  | fuel + 1, bs =>
    if bi + bs < ahi ∧ bj + bs < bhi ∧
        a.getD (bi + bs) ' ' = b.getD (bj + bs) ' ' then
      flm_extend_hi a b ahi bhi bi bj fuel (bs + 1)
    else bs

/-- The state of `find_longest_match` after the dynamic program and the
first (leftward) extension loop. -/
def flm_after_lo (a b : List Char) (alo ahi blo bhi : Nat) :
    Nat × Nat × Nat :=
  flm_extend_lo a b alo blo (flm_dp a b alo ahi blo bhi).1
    (flm_dp a b alo ahi blo bhi)

/-- `SequenceMatcher.find_longest_match(alo, ahi, blo, bhi)` with both
junk sets empty: the dynamic program followed by the two non-junk
extension loops (the two junk-extension loops require `isbjunk(...)` to
be true and never run). -/
def find_longest_match (a b : List Char) (alo ahi blo bhi : Nat) :
    Nat × Nat × Nat :=
  ((flm_after_lo a b alo ahi blo bhi).1,
   (flm_after_lo a b alo ahi blo bhi).2.1,
   flm_extend_hi a b ahi bhi (flm_after_lo a b alo ahi blo bhi).1
     (flm_after_lo a b alo ahi blo bhi).2.1
     (ahi - ((flm_after_lo a b alo ahi blo bhi).1 +
       (flm_after_lo a b alo ahi blo bhi).2.2))
     (flm_after_lo a b alo ahi blo bhi).2.2)

/-- Lexicographic comparison of block triples, the order used by Python's
`matching_blocks.sort()` on `(i, j, size)` tuples. -/
def block_le (x y : Nat × Nat × Nat) : Bool :=
  decide (x.1 < y.1) ||
    (decide (x.1 = y.1) &&
      (decide (x.2.1 < y.2.1) ||
        (decide (x.2.1 = y.2.1) && decide (x.2.2 ≤ y.2.2))))

/-- Insertion of one block into a sorted block list. -/
def block_insort (x : Nat × Nat × Nat) :
    List (Nat × Nat × Nat) → List (Nat × Nat × Nat)
  | [] => [x]
  | y :: t => if block_le x y then x :: y :: t else y :: block_insort x t

/-- Model of Python's `matching_blocks.sort()`: a comparison sort under
`block_le`.  The list it is applied to below is proved to be already
sorted, on which every comparison sort (including CPython's stable sort)
is the identity, so the choice of sorting algorithm is immaterial. -/
def block_sort : List (Nat × Nat × Nat) → List (Nat × Nat × Nat)
  | [] => []
  | x :: t => block_insort x (block_sort t)

/-- The recursive collection phase of `get_matching_blocks`: find the
longest match of the current rectangle; if non-empty, recurse on the
rectangle to its lower-left and on the rectangle to its upper-right.
difflib drives this with an explicit LIFO queue and sorts afterwards;
the recursion here visits the identical rectangles and collects the
identical set of blocks, in in-order (already sorted) order.  The fuel
strictly exceeds `ahi - alo` at every reachable call (each sub-rectangle
is strictly narrower in `a`), so it never reaches `0` from the top-level
call. -/
def matching_blocks_rec (a b : List Char) :
    Nat → Nat → Nat → Nat → Nat → List (Nat × Nat × Nat)
  | 0, _, _, _, _ => []
  | fuel + 1, alo, ahi, blo, bhi =>
    let m := find_longest_match a b alo ahi blo bhi
    if m.2.2 = 0 then []
    else
      (if alo < m.1 ∧ blo < m.2.1 then
        matching_blocks_rec a b fuel alo m.1 blo m.2.1
      else []) ++
      m ::
      (if m.1 + m.2.2 < ahi ∧ m.2.1 + m.2.2 < bhi then
        matching_blocks_rec a b fuel (m.1 + m.2.2) ahi (m.2.1 + m.2.2) bhi
      else [])

/-- The second phase of `get_matching_blocks`: collapse adjacent blocks
(`i1 + k1 == i2 and j1 + k1 == j2`), starting from `i1 = j1 = k1 = 0` and
emitting a pending block only when `k1` is non-zero. -/
def merge_adjacent : Nat → Nat → Nat → List (Nat × Nat × Nat) →
    List (Nat × Nat × Nat)
  | i1, j1, k1, [] => if k1 ≠ 0 then [(i1, j1, k1)] else []
  | i1, j1, k1, (i2, j2, k2) :: rest =>
    if i1 + k1 = i2 ∧ j1 + k1 = j2 then
      merge_adjacent i1 j1 (k1 + k2) rest
    else
      (if k1 ≠ 0 then [(i1, j1, k1)] else []) ++ merge_adjacent i2 j2 k2 rest

/-- `SequenceMatcher.get_matching_blocks()`: collect, sort, merge
adjacent blocks and append the terminating sentinel `(la, lb, 0)`. -/
def get_matching_blocks (a b : List Char) : List (Nat × Nat × Nat) :=
  let blocks :=
    block_sort (matching_blocks_rec a b (a.length + 1) 0 a.length 0 b.length)
  merge_adjacent 0 0 0 blocks ++ [(a.length, b.length, 0)]

/-- The four opcode tags of `SequenceMatcher.get_opcodes()`. -/
inductive Tag where
  | equal
  | replace
  | delete
  | insert
deriving DecidableEq, Repr

/-- One opcode `(tag, i1, i2, j1, j2)`. -/
structure Op where
  tag : Tag
  i1 : Nat
  i2 : Nat
  j1 : Nat
  j2 : Nat
deriving DecidableEq, Repr

/-- The loop body of `get_opcodes()`: walk the matching blocks with a
cursor `(i, j)`, emitting a `replace`/`delete`/`insert` opcode for the
gap before each block and an `equal` opcode for the block itself when its
size is non-zero. -/
def opcodes_go : Nat → Nat → List (Nat × Nat × Nat) → List Op
  | _, _, [] => []
  | i, j, (ai, bj, size) :: rest =>
    (if i < ai ∧ j < bj then [⟨Tag.replace, i, ai, j, bj⟩]
     else if i < ai then [⟨Tag.delete, i, ai, j, bj⟩]
     else if j < bj then [⟨Tag.insert, i, ai, j, bj⟩]
     else []) ++
    (if size ≠ 0 then [⟨Tag.equal, ai, ai + size, bj, bj + size⟩] else []) ++
    opcodes_go (ai + size) (bj + size) rest

/-- `SequenceMatcher.get_opcodes()`. -/
def get_opcodes (a b : List Char) : List Op :=
  opcodes_go 0 0 (get_matching_blocks a b)

/-! ### The Character-Level Force Aligner (`_step2_force_alignment`) -/

/-- Flattening of the Whisper word timestamps into a character list,
each character inheriting its word's `start` and `end`:
`for w in whisper_timestamps: for char in w["word"]: ...`. -/
def whisper_char_list (whisper_timestamps : List WordTs) : List CharTs :=
  whisper_timestamps.flatMap fun w =>
    w.word.map fun c => ⟨c, w.start, w.«end»⟩

/-- The opcode-processing loop of `_step2_force_alignment`, threading the
accumulated `aligned_results` and `current_time`.

* `equal`: each reference character takes the corresponding transcribed
  character's timestamps verbatim; `current_time` ends at the last copied
  character's `end`.
* `replace`: the span `[start_t, end_t]` of the transcribed run (or the
  degenerate `[current_time, current_time]` if that run is empty) is
  evenly subdivided over the reference characters.
* `delete`: nothing is emitted; `current_time` advances to the end of the
  deleted transcribed run.
* `insert`: each reference character is pinned to `current_time` with a
  zero-width interval. -/
def align_ops (wc : List CharTs) (s : List Char) :
    List Op → List CharTs → ℚ → List CharTs
  | [], res, _ => res
  | op :: rest, res, ct =>
    match op.tag with
    | Tag.equal =>
      let seg := (List.range (op.j2 - op.j1)).map fun k =>
        (⟨s.getD (op.j1 + k) ' ', (wc.getD (op.i1 + k) dCT).start,
          (wc.getD (op.i1 + k) dCT).«end»⟩ : CharTs)
      let ct' :=
        if op.j1 < op.j2 then (wc.getD (op.i1 + (op.j2 - op.j1) - 1) dCT).«end»
        else ct
      align_ops wc s rest (res ++ seg) ct'
    | Tag.replace =>
      let start_t := if op.i1 < op.i2 then (wc.getD op.i1 dCT).start else ct
      let end_t := if op.i1 < op.i2 then (wc.getD (op.i2 - 1) dCT).«end» else ct
      let duration := end_t - start_t
      let num := op.j2 - op.j1
      let seg :=
        if 0 < num then
          (List.range num).map fun k =>
            (⟨s.getD (op.j1 + k) ' ',
              start_t + k * (duration / num),
              start_t + (k + 1) * (duration / num)⟩ : CharTs)
        else []
      align_ops wc s rest (res ++ seg) end_t
    | Tag.delete =>
      let ct' := if op.i1 < op.i2 then (wc.getD (op.i2 - 1) dCT).«end» else ct
      align_ops wc s rest res ct'
    | Tag.insert =>
      let seg := (List.range (op.j2 - op.j1)).map fun k =>
        (⟨s.getD (op.j1 + k) ' ', ct, ct⟩ : CharTs)
      align_ops wc s rest (res ++ seg) ct

/-- The initialization of the force aligner's time cursor:
`current_time = whisper_chars[0]["start"]` when the flattened
transcription is non-empty, else `0.0`. -/
def step2_ct0 : List CharTs → ℚ
  | [] => 0
  | w :: _ => w.start

/-- `_step2_force_alignment(whisper_timestamps, full_script)`: flatten
the transcription, strip newlines from the reference script, diff the two
character streams and process the edit script. -/
def step2_force_alignment (whisper_timestamps : List WordTs)
    (full_script : List Char) : List CharTs :=
  align_ops (whisper_char_list whisper_timestamps)
    (full_script.filter (· ≠ '\n'))
    (get_opcodes ((whisper_char_list whisper_timestamps).map (·.char))
      (full_script.filter (· ≠ '\n')))
    [] (step2_ct0 (whisper_char_list whisper_timestamps))

/-! ### The Frame-Quantized Duration Allocator (`ffmpeg_engine.run`) -/

/-- The per-segment frame counts computed at lines 580-611 of
`ffmpeg_engine.py`: `frame_index[i] = int(round(start_times[i] * fps))`;
segment `i < n-1` gets `frame_index[i+1] - frame_index[i]` frames, the
last segment gets `int(round(avatar_duration * fps)) - frame_index[n-1]`.
This is the quantity the spec's zero-drift invariant is about (the code
afterwards converts each count back to seconds and substitutes a measured
clip duration when the result is below the 0.1 s sanity floor). -/
def duration_frames (start_times : List ℚ) (avatar_duration : ℚ)
    (fps : ℕ) : List ℤ :=
  let n := start_times.length
  (List.range n).map fun i =>
    let current_frame_start := py_round (start_times.getD i 0 * fps)
    if i < n - 1 then
      py_round (start_times.getD (i + 1) 0 * fps) - current_frame_start
    else
      py_round (avatar_duration * fps) - current_frame_start

/-! ### The Offset Detector (`find_audio_offset`) -/

/-- `np.argmax` on a rational list: index of the first occurrence of the
maximum value (`0` on the empty list). -/
def np_argmax (l : List ℚ) : Nat :=
  (l.foldl
    (fun (acc : Nat × Nat × ℚ) v =>
      if acc.2.2 < v then (acc.2.1, acc.2.1 + 1, v)
      else (acc.1, acc.2.1 + 1, acc.2.2))
    (0, 0, l.headD 0)).1

/-- `find_audio_offset(main_audio, segment_audio, sr, start_hint)`.

The FFT cross-correlation
`corr = np.fft.irfft(np.fft.rfft(main) * np.conj(np.fft.rfft(padded_seg)))`
is floating-point numerics and is abstracted as the parameter `corr`
(the correlation output array); the guard and the peak-selection logic
around it, which the claims under verification concern, are embedded
exactly.  `n = len(main_audio)`; `hint_idx = int(start_hint * sr)`;
`window = int(10.0 * sr)`; the search region is
`[max(0, hint_idx - window//2), min(n, hint_idx + window*2))`; the first
argmax of `corr` in that region is returned divided by `sr`, and the
argmax over all of `corr` is used only when the region is empty.  If the
segment is longer than the reference, `0.0` is returned immediately,
before any correlation is computed. -/
def find_audio_offset (main_audio segment_audio : List ℚ) (corr : List ℚ)
    (sr : ℕ) (start_hint : ℚ) : ℚ :=
  if segment_audio.length > main_audio.length then 0
  else
    let n : ℤ := main_audio.length
    let hint_idx : ℤ := py_int_trunc (start_hint * sr)
    let window : ℤ := py_int_trunc (10 * (sr : ℚ))
    let search_start : ℤ := max 0 (hint_idx - window / 2)
    let search_end : ℤ := min n (hint_idx + window * 2)
    let peak_idx : ℤ :=
      if search_start < search_end then
        search_start +
          np_argmax
            ((corr.drop search_start.toNat).take
              (search_end - search_start).toNat)
      else
        np_argmax corr
    (peak_idx : ℚ) / (sr : ℚ)

/-! ### The Subtitle Timestamp Mapper (`_step4_align_timestamps`) -/

/-- One final subtitle cue `{"start": ..., "end": ..., "text": ...}`. -/
structure Cue where
  start : ℚ
  «end» : ℚ
  text : List Char
deriving DecidableEq, Repr

/-- The `skip_chars` set of `_step4_align_timestamps`: whitespace and
punctuation excluded from matching. -/
def skip_chars : List Char :=
  [' ', '，', '。', '、', '！', '？', '：', '；', '「', '」', '『', '』',
   '（', '）', ',', '.', '!', '?', ':', ';']

/-- `line.replace("\n", "").replace("\r", "")`. -/
def clean_line (line : List Char) : List Char :=
  (line.filter (· ≠ '\n')).filter (· ≠ '\r')

/-- The accumulated state of the subtitle mapper's outer loop. -/
structure Step4Acc where
  final_subtitles : List Cue
  char_idx : Nat
  current_time : ℚ
  matched_count : Nat
  fallback_count : Nat
deriving DecidableEq, Repr

/-- The forward search
`for k in range(min(search_window, total_chars - char_idx))`:
the first `k` whose timeline character is not a skip character
(`continue`) and equals `c`; `none` when the window is exhausted. -/
def step4_find (aligned_chars : List CharTs) (char_idx : Nat) (c : Char)
    (w : Nat) : Option Nat :=
  (List.range w).find? fun k =>
    !(skip_chars.contains (aligned_chars.getD (char_idx + k) dCT).char) &&
      ((aligned_chars.getD (char_idx + k) dCT).char == c)

/-- The body of `for char in line_clean`: skip characters are ignored;
otherwise search forward within the window of `100` entries, consume the
matched entry, or fall back to consuming one entry at the cursor, or (if
the timeline is exhausted) to the running `current_time`.  The pair
`Option (ℚ × ℚ)` carries `(start_time, end_time)`; it is `none` exactly
while Python's `start_time` is `None` (every branch of the code that sets
`start_time` also sets `end_time`). -/
def step4_char (aligned_chars : List CharTs)
    (st : Step4Acc × Option (ℚ × ℚ)) (c : Char) :
    Step4Acc × Option (ℚ × ℚ) :=
  let a := st.1
  if skip_chars.contains c then st
  else
    let total_chars := aligned_chars.length
    let w := min 100 (total_chars - a.char_idx)
    match step4_find aligned_chars a.char_idx c w with
    | some k =>
      let item := aligned_chars.getD (a.char_idx + k) dCT
      let s := match st.2 with
        | none => item.start
        | some p => p.1
      ({ a with
          char_idx := a.char_idx + k + 1
          current_time := item.«end»
          matched_count := a.matched_count + 1 },
        some (s, item.«end»))
    | none =>
      if a.char_idx < total_chars then
        let item := aligned_chars.getD a.char_idx dCT
        let s := match st.2 with
          | none => item.start
          | some p => p.1
        ({ a with
            char_idx := a.char_idx + 1
            current_time := item.«end»
            fallback_count := a.fallback_count + 1 },
          some (s, item.«end»))
      else
        let s := match st.2 with
          | none => a.current_time
          | some p => p.1
        ({ a with fallback_count := a.fallback_count + 1 },
          some (s, a.current_time))

/-- The cue-emission step at the end of each line iteration: if
`start_time` is still `None` no cue is appended, otherwise the cue is
appended with `end_time = start_time + 0.5` forced whenever the computed
`end_time <= start_time`. -/
def step4_emit (line : List Char) (r : Step4Acc × Option (ℚ × ℚ)) :
    Step4Acc :=
  match r.2 with
  | none => r.1
  | some p =>
    { r.1 with
        final_subtitles := r.1.final_subtitles ++
          [⟨p.1, if p.2 ≤ p.1 then p.1 + 1/2 else p.2, line⟩] }

/-- One iteration of `for line in subtitle_lines`: empty cleaned lines
are skipped (`if not line_clean: continue`); otherwise the characters
are processed and the cue-emission step runs. -/
def step4_line (aligned_chars : List CharTs) (a : Step4Acc)
    (line : List Char) : Step4Acc :=
  if clean_line line = [] then a
  else step4_emit line ((clean_line line).foldl (step4_char aligned_chars) (a, none))

/-- The initialization `current_time = aligned_chars[0]["start"] if
aligned_chars else 0.0`. -/
def step4_ct0 : List CharTs → ℚ
  | [] => 0
  | x :: _ => x.start

/-- `_step4_align_timestamps(subtitle_lines, aligned_chars)`. -/
def step4_align_timestamps (subtitle_lines : List (List Char))
    (aligned_chars : List CharTs) : Step4Acc :=
  subtitle_lines.foldl (step4_line aligned_chars)
    ⟨[], 0, step4_ct0 aligned_chars, 0, 0⟩

/-- The single cue produced for one subtitle line when the aligned
timeline is empty: a `[0.0, 0.5]` cue when the cleaned line has at least
one non-skip character, no cue otherwise. -/
def empty_timeline_cue (line : List Char) : Option Cue :=
  if (clean_line line).any (fun c => !(skip_chars.contains c)) then
    some ⟨0, 1/2, line⟩
  else none

/-- `total_script_chars`: the coverage denominator, the sum of the
lengths of all cleaned lines (including punctuation and whitespace). -/
def total_script_chars (subtitle_lines : List (List Char))  : Nat :=
  (subtitle_lines.map fun line => (clean_line line).length).sum

/-- The coverage diagnostic `matched_count / total_script_chars` printed
by `_step4_align_timestamps` (only when the denominator is positive). -/
def step4_coverage (subtitle_lines : List (List Char))
    (aligned_chars : List CharTs) : ℚ :=
  ((step4_align_timestamps subtitle_lines aligned_chars).matched_count : ℚ) /
    (total_script_chars subtitle_lines : ℚ)

/-! ### Ordering predicates used as hypotheses -/

/-- The spec's assumption on the transcriber output (spec §3,
`WordTimestamp`): each word has `start ≤ end` and the words are
time-ordered and non-overlapping (each word ends no later than every
later word starts). -/
def WordsOrdered (ws : List WordTs) : Prop :=
  (∀ w ∈ ws, w.start ≤ w.«end») ∧
    List.Pairwise (fun u v => u.«end» ≤ v.start) ws

/-- A character timeline that is time-ordered and non-overlapping at the
granularity of single entries: every entry has `start ≤ end` and every
entry ends no later than every later entry starts. -/
def CTOrdered (l : List CharTs) : Prop :=
  (∀ x ∈ l, x.start ≤ x.«end») ∧
    List.Pairwise (fun u v => u.«end» ≤ v.start) l

/-- Weak monotonicity of a character timeline, as satisfied by the
flattening of an ordered word list (characters of one word share their
word's interval): starts are non-decreasing, ends are non-decreasing, and
every entry starts no later than every later entry ends. -/
def CTWeakMono (l : List CharTs) : Prop :=
  ∀ m m', m ≤ m' → m' < l.length →
    (l.getD m dCT).start ≤ (l.getD m' dCT).start ∧
    (l.getD m dCT).«end» ≤ (l.getD m' dCT).«end» ∧
    (l.getD m dCT).start ≤ (l.getD m' dCT).«end»

/-! ### Structural predicates for the difflib proofs -/

/-- A block list is a staircase chain starting at cursor `(ci, cj)` and
staying within `(ahi, bhi)`: every block starts at or after the cursor
in both coordinates, and the final cursor is within bounds. -/
def BChainW (ahi bhi : Nat) : Nat → Nat → List (Nat × Nat × Nat) → Prop
  | ci, cj, [] => ci ≤ ahi ∧ cj ≤ bhi
  | ci, cj, b :: rest =>
    ci ≤ b.1 ∧ cj ≤ b.2.1 ∧ BChainW ahi bhi (b.1 + b.2.2) (b.2.1 + b.2.2) rest

/-- A block list is a staircase chain from `(ci, cj)` whose cursor ends
exactly at `(la, lb)` (as guaranteed by the `(la, lb, 0)` sentinel). -/
def BChainTo (la lb : Nat) : Nat → Nat → List (Nat × Nat × Nat) → Prop
  | ci, cj, [] => ci = la ∧ cj = lb
  | ci, cj, b :: rest =>
    ci ≤ b.1 ∧ cj ≤ b.2.1 ∧ BChainTo la lb (b.1 + b.2.2) (b.2.1 + b.2.2) rest

/-- An opcode list tiles the rectangle from cursor `(i, j)` to exactly
`(la, lb)`: consecutive opcodes have abutting index intervals, and each
tag constrains its intervals the way `get_opcodes` guarantees
(`equal` runs are non-empty and of equal length on both sides, `replace`
is non-empty on both, `delete` only on the left, `insert` only on the
right). -/
def OpsTile (la lb : Nat) : Nat → Nat → List Op → Prop
  | i, j, [] => i = la ∧ j = lb
  | i, j, op :: rest =>
    op.i1 = i ∧ op.j1 = j ∧
    (match op.tag with
     | Tag.equal => i < op.i2 ∧ j < op.j2 ∧ op.i2 - op.i1 = op.j2 - op.j1
     | Tag.replace => i < op.i2 ∧ j < op.j2
     | Tag.delete => i < op.i2 ∧ op.j2 = j
     | Tag.insert => op.i2 = i ∧ j < op.j2) ∧
    OpsTile la lb op.i2 op.j2 rest

/-- The invariant of the subtitle mapper's outer loop used to prove cue
ordering: the cursor is within the timeline, the running time is at or
before the start of every unconsumed timeline entry, the emitted cues
have non-decreasing starts all at or before the running time, and each
emitted cue has positive duration. -/
def Step4Inv (aligned_chars : List CharTs) (a : Step4Acc) : Prop :=
  a.char_idx ≤ aligned_chars.length ∧
  (∀ m, a.char_idx ≤ m → m < aligned_chars.length →
    a.current_time ≤ (aligned_chars.getD m dCT).start) ∧
  List.Pairwise (fun x y : Cue => x.start ≤ y.start) a.final_subtitles ∧
  (∀ cue ∈ a.final_subtitles, cue.start ≤ a.current_time) ∧
  (∀ cue ∈ a.final_subtitles, cue.start < cue.«end»)

/-- The invariant carried through the character loop of one subtitle
line: the accumulator satisfies the running-state invariant, and as soon
as `start_time` is set the pending interval starts after every emitted
cue's start, runs up to exactly the current time, and is well-formed. -/
def Step4AccInv (aligned_chars : List CharTs)
    (st : Step4Acc × Option (ℚ × ℚ)) : Prop :=
  Step4Inv aligned_chars st.1 ∧
  ∀ p, st.2 = some p →
    (∀ cue ∈ st.1.final_subtitles, cue.start ≤ p.1) ∧
    p.1 ≤ st.1.current_time ∧ p.2 = st.1.current_time

set_option maxRecDepth 8000

/-! ### Decidability of the ordering hypotheses -/

instance (l : List CharTs) : Decidable (CTOrdered l) :=
  inferInstanceAs (Decidable
    ((∀ x ∈ l, x.start ≤ x.«end») ∧
      List.Pairwise (fun u v : CharTs => u.«end» ≤ v.start) l))

instance (ws : List WordTs) : Decidable (WordsOrdered ws) :=
  inferInstanceAs (Decidable
    ((∀ w ∈ ws, w.start ≤ w.«end») ∧
      List.Pairwise (fun u v : WordTs => u.«end» ≤ v.start) ws))

/-! ### Properties of the embedded functions -/

theorem flm_best_inv (prev : Nat → Nat) (alo blo bhi t : Nat) (js : List Nat)
    (hprev : ∀ j, prev j ≤ t ∧ prev j ≤ j + 1 - blo)
    (hjs : ∀ j ∈ js, blo ≤ j ∧ j < bhi) :
    ∀ st : Nat × Nat × Nat,
      alo ≤ st.1 → st.1 + st.2.2 ≤ alo + t + 1 → blo ≤ st.2.1 →
      st.2.1 + st.2.2 ≤ bhi →
      alo ≤ (flm_best prev (alo + t) js st).1 ∧
      (flm_best prev (alo + t) js st).1 + (flm_best prev (alo + t) js st).2.2 ≤
        alo + t + 1 ∧
      blo ≤ (flm_best prev (alo + t) js st).2.1 ∧
      (flm_best prev (alo + t) js st).2.1 + (flm_best prev (alo + t) js st).2.2 ≤ bhi := by
  induction js with
  | nil => exact fun st h1 h2 h3 h4 => ⟨h1, h2, h3, h4⟩
  | cons j js ih =>
    intro st h1 h2 h3 h4
    have hj := hjs j (List.mem_cons_self j js)
    have hjs' : ∀ j ∈ js, blo ≤ j ∧ j < bhi := fun x hx => hjs x (List.mem_cons_of_mem j hx)
    have hstep : flm_best prev (alo + t) (j :: js) st =
        flm_best prev (alo + t) js
          (let k := (if j = 0 then 0 else prev (j - 1)) + 1
           if st.2.2 < k then (alo + t + 1 - k, j + 1 - k, k) else st) := by
      rfl
    rw [hstep]
    set k := (if j = 0 then 0 else prev (j - 1)) + 1 with hk
    have hk1 : k ≤ t + 1 := by
      rw [hk]
      by_cases hj0 : j = 0
      · simp [hj0]
      · simp only [hj0, if_false]
        have := (hprev (j - 1)).1
        omega
    have hk2 : k ≤ j + 1 - blo := by
      rw [hk]
      by_cases hj0 : j = 0
      · have hblo0 : blo = 0 := by
          have := hj.1
          omega
        simp [hj0, hblo0]
      · simp only [hj0, if_false]
        have := (hprev (j - 1)).2
        have hbj := hj.1
        omega
    by_cases hlt : st.2.2 < k
    · simp only [if_pos hlt]
      refine ih hjs' (alo + t + 1 - k, j + 1 - k, k) ?_ ?_ ?_ ?_
      · show alo ≤ alo + t + 1 - k
        omega
      · show alo + t + 1 - k + k ≤ alo + t + 1
        omega
      · show blo ≤ j + 1 - k
        have hbj := hj.1
        omega
      · show j + 1 - k + k ≤ bhi
        have hbj := hj.2
        omega
    · simp only [if_neg hlt]
      exact ih hjs' st h1 h2 h3 h4

theorem flm_js_mem (b : List Char) (blo bhi : Nat) (c : Char) :
    ∀ j ∈ flm_js b blo bhi c, blo ≤ j ∧ j < bhi := by
  intro j hj
  have := List.of_mem_filter hj
  simp only [Bool.and_eq_true, decide_eq_true_eq] at this
  exact ⟨this.1.1, this.1.2⟩

theorem flm_row_bound (prev : Nat → Nat) (b : List Char) (blo bhi : Nat)
    (c : Char) (t : Nat)
    (hprev : ∀ j, prev j ≤ t ∧ prev j ≤ j + 1 - blo) :
    ∀ j, flm_row prev b blo bhi c j ≤ t + 1 ∧
      flm_row prev b blo bhi c j ≤ j + 1 - blo := by
  intro j
  unfold flm_row
  by_cases hc : blo ≤ j ∧ j < bhi ∧ b.getD j ' ' = c
  · rw [if_pos hc]
    by_cases hj0 : j = 0
    · have : blo = 0 := by
        have := hc.1
        omega
      simp [hj0, this]
    · simp only [hj0, if_false]
      have h1 := (hprev (j - 1)).1
      have h2 := (hprev (j - 1)).2
      have := hc.1
      omega
  · rw [if_neg hc]
    omega

theorem flm_dp_inv (a b : List Char) (alo blo bhi : Nat) (hb : blo ≤ bhi) :
    ∀ t,
      (∀ j, ((List.range' alo t).foldl
        (fun (acc : (Nat → Nat) × (Nat × Nat × Nat)) i =>
          (flm_row acc.1 b blo bhi (a.getD i ' '),
           flm_best acc.1 i (flm_js b blo bhi (a.getD i ' ')) acc.2))
        (fun _ => 0, (alo, blo, 0))).1 j ≤ t ∧
        ((List.range' alo t).foldl
        (fun (acc : (Nat → Nat) × (Nat × Nat × Nat)) i =>
          (flm_row acc.1 b blo bhi (a.getD i ' '),
           flm_best acc.1 i (flm_js b blo bhi (a.getD i ' ')) acc.2))
        (fun _ => 0, (alo, blo, 0))).1 j ≤ j + 1 - blo) ∧
      (alo ≤ ((List.range' alo t).foldl
        (fun (acc : (Nat → Nat) × (Nat × Nat × Nat)) i =>
          (flm_row acc.1 b blo bhi (a.getD i ' '),
           flm_best acc.1 i (flm_js b blo bhi (a.getD i ' ')) acc.2))
        (fun _ => 0, (alo, blo, 0))).2.1 ∧
        ((List.range' alo t).foldl
        (fun (acc : (Nat → Nat) × (Nat × Nat × Nat)) i =>
          (flm_row acc.1 b blo bhi (a.getD i ' '),
           flm_best acc.1 i (flm_js b blo bhi (a.getD i ' ')) acc.2))
        (fun _ => 0, (alo, blo, 0))).2.1 +
        ((List.range' alo t).foldl
        (fun (acc : (Nat → Nat) × (Nat × Nat × Nat)) i =>
          (flm_row acc.1 b blo bhi (a.getD i ' '),
           flm_best acc.1 i (flm_js b blo bhi (a.getD i ' ')) acc.2))
        (fun _ => 0, (alo, blo, 0))).2.2.2 ≤ alo + t ∧
        blo ≤ ((List.range' alo t).foldl
        (fun (acc : (Nat → Nat) × (Nat × Nat × Nat)) i =>
          (flm_row acc.1 b blo bhi (a.getD i ' '),
           flm_best acc.1 i (flm_js b blo bhi (a.getD i ' ')) acc.2))
        (fun _ => 0, (alo, blo, 0))).2.2.1 ∧
        ((List.range' alo t).foldl
        (fun (acc : (Nat → Nat) × (Nat × Nat × Nat)) i =>
          (flm_row acc.1 b blo bhi (a.getD i ' '),
           flm_best acc.1 i (flm_js b blo bhi (a.getD i ' ')) acc.2))
        (fun _ => 0, (alo, blo, 0))).2.2.1 +
        ((List.range' alo t).foldl
        (fun (acc : (Nat → Nat) × (Nat × Nat × Nat)) i =>
          (flm_row acc.1 b blo bhi (a.getD i ' '),
           flm_best acc.1 i (flm_js b blo bhi (a.getD i ' ')) acc.2))
        (fun _ => 0, (alo, blo, 0))).2.2.2 ≤ bhi) := by
  intro t
  induction t with
  | zero =>
    refine ⟨fun j => by simp, by simp, by simp, le_refl blo, by simpa using hb⟩
  | succ t ih =>
    rw [List.range'_1_concat, List.foldl_append]
    simp only [List.foldl_cons, List.foldl_nil]
    obtain ⟨ihrow, ihbest⟩ := ih
    constructor
    · exact flm_row_bound _ b blo bhi _ t ihrow
    · have := flm_best_inv _ alo blo bhi t
        (flm_js b blo bhi (a.getD (alo + t) ' ')) ihrow
        (flm_js_mem b blo bhi _) _
        ihbest.1 (by omega) ihbest.2.2.1 ihbest.2.2.2
      exact ⟨this.1, this.2.1, this.2.2⟩

theorem flm_extend_lo_bounds (a b : List Char) (alo blo A B : Nat) :
    ∀ fuel (st : Nat × Nat × Nat),
      alo ≤ st.1 → blo ≤ st.2.1 → st.1 + st.2.2 ≤ A → st.2.1 + st.2.2 ≤ B →
      alo ≤ (flm_extend_lo a b alo blo fuel st).1 ∧
      blo ≤ (flm_extend_lo a b alo blo fuel st).2.1 ∧
      (flm_extend_lo a b alo blo fuel st).1 +
        (flm_extend_lo a b alo blo fuel st).2.2 ≤ A ∧
      (flm_extend_lo a b alo blo fuel st).2.1 +
        (flm_extend_lo a b alo blo fuel st).2.2 ≤ B := by
  intro fuel
  induction fuel with
  | zero => exact fun st h1 h2 h3 h4 => ⟨h1, h2, h3, h4⟩
  | succ fuel ih =>
    rintro ⟨bi, bj, bs⟩ h1 h2 h3 h4
    unfold flm_extend_lo
    by_cases hc : alo < bi ∧ blo < bj ∧ a.getD (bi - 1) ' ' = b.getD (bj - 1) ' '
    · rw [if_pos hc]
      refine ih (bi - 1, bj - 1, bs + 1) ?_ ?_ ?_ ?_
      · show alo ≤ bi - 1
        omega
      · show blo ≤ bj - 1
        omega
      · show bi - 1 + (bs + 1) ≤ A
        simp only at h3
        omega
      · show bj - 1 + (bs + 1) ≤ B
        simp only at h4
        omega
    · rw [if_neg hc]
      exact ⟨h1, h2, h3, h4⟩

theorem flm_extend_hi_bounds (a b : List Char) (ahi bhi bi bj : Nat) :
    ∀ fuel bs, bi + bs ≤ ahi → bj + bs ≤ bhi →
      bi + flm_extend_hi a b ahi bhi bi bj fuel bs ≤ ahi ∧
      bj + flm_extend_hi a b ahi bhi bi bj fuel bs ≤ bhi := by
  intro fuel
  induction fuel with
  | zero => exact fun bs h1 h2 => ⟨h1, h2⟩
  | succ fuel ih =>
    intro bs h1 h2
    unfold flm_extend_hi
    by_cases hc : bi + bs < ahi ∧ bj + bs < bhi ∧
        a.getD (bi + bs) ' ' = b.getD (bj + bs) ' '
    · rw [if_pos hc]
      exact ih (bs + 1) (by omega) (by omega)
    · rw [if_neg hc]
      exact ⟨h1, h2⟩

theorem flm_dp_bounds (a b : List Char) (alo ahi blo bhi : Nat)
    (ha : alo ≤ ahi) (hb : blo ≤ bhi) :
    alo ≤ (flm_dp a b alo ahi blo bhi).1 ∧
    (flm_dp a b alo ahi blo bhi).1 + (flm_dp a b alo ahi blo bhi).2.2 ≤ ahi ∧
    blo ≤ (flm_dp a b alo ahi blo bhi).2.1 ∧
    (flm_dp a b alo ahi blo bhi).2.1 + (flm_dp a b alo ahi blo bhi).2.2 ≤ bhi := by
  unfold flm_dp
  have hdp := (flm_dp_inv a b alo blo bhi hb (ahi - alo)).2
  have halo : alo + (ahi - alo) = ahi := by omega
  rw [halo] at hdp
  exact hdp

theorem flm_after_lo_bounds (a b : List Char) (alo ahi blo bhi : Nat)
    (ha : alo ≤ ahi) (hb : blo ≤ bhi) :
    alo ≤ (flm_after_lo a b alo ahi blo bhi).1 ∧
    blo ≤ (flm_after_lo a b alo ahi blo bhi).2.1 ∧
    (flm_after_lo a b alo ahi blo bhi).1 +
      (flm_after_lo a b alo ahi blo bhi).2.2 ≤ ahi ∧
    (flm_after_lo a b alo ahi blo bhi).2.1 +
      (flm_after_lo a b alo ahi blo bhi).2.2 ≤ bhi := by
  have hdp := flm_dp_bounds a b alo ahi blo bhi ha hb
  exact flm_extend_lo_bounds a b alo blo ahi bhi _ _
    hdp.1 hdp.2.2.1 hdp.2.1 hdp.2.2.2

theorem find_longest_match_bounds (a b : List Char) (alo ahi blo bhi : Nat)
    (ha : alo ≤ ahi) (hb : blo ≤ bhi) :
    alo ≤ (find_longest_match a b alo ahi blo bhi).1 ∧
    (find_longest_match a b alo ahi blo bhi).1 +
      (find_longest_match a b alo ahi blo bhi).2.2 ≤ ahi ∧
    blo ≤ (find_longest_match a b alo ahi blo bhi).2.1 ∧
    (find_longest_match a b alo ahi blo bhi).2.1 +
      (find_longest_match a b alo ahi blo bhi).2.2 ≤ bhi := by
  have hlo := flm_after_lo_bounds a b alo ahi blo bhi ha hb
  have hhi := flm_extend_hi_bounds a b ahi bhi
    (flm_after_lo a b alo ahi blo bhi).1 (flm_after_lo a b alo ahi blo bhi).2.1
    (ahi - ((flm_after_lo a b alo ahi blo bhi).1 +
      (flm_after_lo a b alo ahi blo bhi).2.2))
    (flm_after_lo a b alo ahi blo bhi).2.2 hlo.2.2.1 hlo.2.2.2
  exact ⟨hlo.1, hhi.1, hlo.2.1, hhi.2⟩

theorem bchainw_weaken (A B : Nat) :
    ∀ (l : List (Nat × Nat × Nat)) (ci cj ci0 cj0 : Nat), ci ≤ ci0 → cj ≤ cj0 →
      BChainW A B ci0 cj0 l → BChainW A B ci cj l := by
  intro l
  cases l with
  | nil => exact fun ci cj ci0 cj0 h1 h2 h => ⟨le_trans h1 h.1, le_trans h2 h.2⟩
  | cons b t =>
    exact fun ci cj ci0 cj0 h1 h2 h =>
      ⟨le_trans h1 h.1, le_trans h2 h.2.1, h.2.2⟩

theorem bchainw_append (A B A' B' : Nat) :
    ∀ (l1 l2 : List (Nat × Nat × Nat)) (ci cj : Nat),
      BChainW A B ci cj l1 → BChainW A' B' A B l2 →
      BChainW A' B' ci cj (l1 ++ l2) := by
  intro l1
  induction l1 with
  | nil =>
    intro l2 ci cj h1 h2
    exact bchainw_weaken A' B' l2 ci cj A B h1.1 h1.2 h2
  | cons b t ih =>
    intro l2 ci cj h1 h2
    exact ⟨h1.1, h1.2.1, ih l2 _ _ h1.2.2 h2⟩

theorem matching_blocks_rec_succ (a b : List Char)
    (fuel alo ahi blo bhi : Nat) :
    matching_blocks_rec a b (fuel + 1) alo ahi blo bhi =
      (if (find_longest_match a b alo ahi blo bhi).2.2 = 0 then []
       else
        (if alo < (find_longest_match a b alo ahi blo bhi).1 ∧
            blo < (find_longest_match a b alo ahi blo bhi).2.1 then
          matching_blocks_rec a b fuel alo
            (find_longest_match a b alo ahi blo bhi).1 blo
            (find_longest_match a b alo ahi blo bhi).2.1
        else []) ++
        (find_longest_match a b alo ahi blo bhi) ::
        (if (find_longest_match a b alo ahi blo bhi).1 +
              (find_longest_match a b alo ahi blo bhi).2.2 < ahi ∧
            (find_longest_match a b alo ahi blo bhi).2.1 +
              (find_longest_match a b alo ahi blo bhi).2.2 < bhi then
          matching_blocks_rec a b fuel
            ((find_longest_match a b alo ahi blo bhi).1 +
              (find_longest_match a b alo ahi blo bhi).2.2) ahi
            ((find_longest_match a b alo ahi blo bhi).2.1 +
              (find_longest_match a b alo ahi blo bhi).2.2) bhi
        else [])) := rfl

theorem matching_blocks_rec_chain (a b : List Char) :
    ∀ fuel alo ahi blo bhi, alo ≤ ahi → blo ≤ bhi →
      BChainW ahi bhi alo blo (matching_blocks_rec a b fuel alo ahi blo bhi) ∧
      ∀ blk ∈ matching_blocks_rec a b fuel alo ahi blo bhi, 0 < blk.2.2 := by
  intro fuel
  induction fuel with
  | zero =>
    intro alo ahi blo bhi ha hb
    exact ⟨⟨ha, hb⟩, by simp [matching_blocks_rec]⟩
  | succ fuel ih =>
    intro alo ahi blo bhi ha hb
    rw [matching_blocks_rec_succ]
    have hbnd := find_longest_match_bounds a b alo ahi blo bhi ha hb
    by_cases hk : (find_longest_match a b alo ahi blo bhi).2.2 = 0
    · rw [if_pos hk]
      exact ⟨⟨ha, hb⟩, by simp⟩
    · rw [if_neg hk]
      have hL : BChainW (find_longest_match a b alo ahi blo bhi).1
          (find_longest_match a b alo ahi blo bhi).2.1 alo blo
          (if alo < (find_longest_match a b alo ahi blo bhi).1 ∧
              blo < (find_longest_match a b alo ahi blo bhi).2.1 then
            matching_blocks_rec a b fuel alo
              (find_longest_match a b alo ahi blo bhi).1 blo
              (find_longest_match a b alo ahi blo bhi).2.1
          else []) ∧
          ∀ blk ∈ (if alo < (find_longest_match a b alo ahi blo bhi).1 ∧
              blo < (find_longest_match a b alo ahi blo bhi).2.1 then
            matching_blocks_rec a b fuel alo
              (find_longest_match a b alo ahi blo bhi).1 blo
              (find_longest_match a b alo ahi blo bhi).2.1
          else []), 0 < blk.2.2 := by
        by_cases hc : alo < (find_longest_match a b alo ahi blo bhi).1 ∧
            blo < (find_longest_match a b alo ahi blo bhi).2.1
        · rw [if_pos hc]
          exact ih alo _ blo _ (le_of_lt hc.1) (le_of_lt hc.2)
        · rw [if_neg hc]
          exact ⟨⟨hbnd.1, hbnd.2.2.1⟩, by simp⟩
      have hR : BChainW ahi bhi
          ((find_longest_match a b alo ahi blo bhi).1 +
            (find_longest_match a b alo ahi blo bhi).2.2)
          ((find_longest_match a b alo ahi blo bhi).2.1 +
            (find_longest_match a b alo ahi blo bhi).2.2)
          (if (find_longest_match a b alo ahi blo bhi).1 +
                (find_longest_match a b alo ahi blo bhi).2.2 < ahi ∧
              (find_longest_match a b alo ahi blo bhi).2.1 +
                (find_longest_match a b alo ahi blo bhi).2.2 < bhi then
            matching_blocks_rec a b fuel
              ((find_longest_match a b alo ahi blo bhi).1 +
                (find_longest_match a b alo ahi blo bhi).2.2) ahi
              ((find_longest_match a b alo ahi blo bhi).2.1 +
                (find_longest_match a b alo ahi blo bhi).2.2) bhi
          else []) ∧
          ∀ blk ∈ (if (find_longest_match a b alo ahi blo bhi).1 +
                (find_longest_match a b alo ahi blo bhi).2.2 < ahi ∧
              (find_longest_match a b alo ahi blo bhi).2.1 +
                (find_longest_match a b alo ahi blo bhi).2.2 < bhi then
            matching_blocks_rec a b fuel
              ((find_longest_match a b alo ahi blo bhi).1 +
                (find_longest_match a b alo ahi blo bhi).2.2) ahi
              ((find_longest_match a b alo ahi blo bhi).2.1 +
                (find_longest_match a b alo ahi blo bhi).2.2) bhi
          else []), 0 < blk.2.2 := by
        by_cases hc : (find_longest_match a b alo ahi blo bhi).1 +
              (find_longest_match a b alo ahi blo bhi).2.2 < ahi ∧
            (find_longest_match a b alo ahi blo bhi).2.1 +
              (find_longest_match a b alo ahi blo bhi).2.2 < bhi
        · rw [if_pos hc]
          exact ih _ _ _ _ (le_of_lt hc.1) (le_of_lt hc.2)
        · rw [if_neg hc]
          exact ⟨⟨hbnd.2.1, hbnd.2.2.2⟩, by simp⟩
      constructor
      · refine bchainw_append _ _ ahi bhi _ _ alo blo hL.1 ?_
        exact ⟨le_refl _, le_refl _, hR.1⟩
      · intro blk hblk
        rcases List.mem_append.1 hblk with hm | hm
        · exact hL.2 blk hm
        · rcases List.mem_cons.1 hm with hm | hm
          · rw [hm]
            omega
          · exact hR.2 blk hm

theorem bchainw_chain_lt (A B : Nat) :
    ∀ (l : List (Nat × Nat × Nat)) (ci cj : Nat),
      BChainW A B ci cj l → (∀ blk ∈ l, 0 < blk.2.2) →
      List.Chain' (fun x y : Nat × Nat × Nat => x.1 < y.1) l := by
  intro l
  induction l with
  | nil => exact fun ci cj _ _ => List.chain'_nil
  | cons b t ih =>
    intro ci cj h hpos
    rw [List.chain'_cons']
    refine ⟨?_, ih _ _ h.2.2 fun blk hb => hpos blk (List.mem_cons_of_mem b hb)⟩
    intro y hy
    cases t with
    | nil => simp at hy
    | cons c t2 =>
      simp only [List.head?_cons, Option.mem_some_iff] at hy
      subst hy
      have hb := hpos b (List.mem_cons_self b _)
      have := h.2.2.1
      omega

theorem block_sort_of_chain :
    ∀ l : List (Nat × Nat × Nat),
      List.Chain' (fun x y => block_le x y = true) l → block_sort l = l := by
  intro l
  induction l with
  | nil => exact fun _ => rfl
  | cons x t ih =>
    intro h
    rw [List.chain'_cons'] at h
    unfold block_sort
    rw [ih h.2]
    cases t with
    | nil => rfl
    | cons y t2 =>
      unfold block_insort
      rw [if_pos (h.1 y (by simp))]

theorem chain_lt_block_le :
    ∀ l : List (Nat × Nat × Nat),
      List.Chain' (fun x y : Nat × Nat × Nat => x.1 < y.1) l →
      List.Chain' (fun x y => block_le x y = true) l := by
  intro l h
  refine List.Chain'.imp ?_ h
  intro x y hxy
  unfold block_le
  simp [hxy]

theorem merge_adjacent_chain (A B : Nat) :
    ∀ (blocks : List (Nat × Nat × Nat)) (i1 j1 k1 ci cj : Nat),
      ci ≤ i1 → cj ≤ j1 → BChainW A B (i1 + k1) (j1 + k1) blocks →
      BChainW A B ci cj (merge_adjacent i1 j1 k1 blocks) := by
  intro blocks
  induction blocks with
  | nil =>
    intro i1 j1 k1 ci cj h1 h2 h
    unfold merge_adjacent
    by_cases hk : k1 ≠ 0
    · rw [if_pos hk]
      exact ⟨h1, h2, h⟩
    · rw [if_neg hk]
      push_neg at hk
      subst hk
      obtain ⟨hA, hB⟩ := h
      exact ⟨by omega, by omega⟩
  | cons b rest ih =>
    intro i1 j1 k1 ci cj h1 h2 h
    obtain ⟨i2, j2, k2⟩ := b
    unfold merge_adjacent
    by_cases hm : i1 + k1 = i2 ∧ j1 + k1 = j2
    · rw [if_pos hm]
      refine ih i1 j1 (k1 + k2) ci cj h1 h2 ?_
      have h3 := h.2.2
      rw [← Nat.add_assoc, ← Nat.add_assoc, hm.1, hm.2]
      exact h3
    · rw [if_neg hm]
      have hrec := ih i2 j2 k2 (i1 + k1) (j1 + k1) h.1 h.2.1 h.2.2
      by_cases hk : k1 ≠ 0
      · rw [if_pos hk]
        exact ⟨h1, h2, hrec⟩
      · rw [if_neg hk]
        push_neg at hk
        subst hk
        simp only [List.nil_append]
        exact bchainw_weaken A B _ ci cj (i1 + 0) (j1 + 0) (by omega) (by omega) hrec

theorem bchainw_sentinel (la lb : Nat) :
    ∀ (l : List (Nat × Nat × Nat)) (ci cj : Nat),
      BChainW la lb ci cj l → BChainTo la lb ci cj (l ++ [(la, lb, 0)]) := by
  intro l
  induction l with
  | nil =>
    intro ci cj h
    exact ⟨h.1, h.2, by simp [BChainTo]⟩
  | cons b t ih =>
    intro ci cj h
    exact ⟨h.1, h.2.1, ih _ _ h.2.2⟩

theorem get_matching_blocks_chain (a b : List Char) :
    BChainTo a.length b.length 0 0 (get_matching_blocks a b) := by
  unfold get_matching_blocks
  have hc := matching_blocks_rec_chain a b (a.length + 1) 0 a.length 0 b.length
    (Nat.zero_le _) (Nat.zero_le _)
  rw [block_sort_of_chain _ (chain_lt_block_le _
    (bchainw_chain_lt a.length b.length _ 0 0 hc.1 hc.2))]
  refine bchainw_sentinel a.length b.length _ 0 0 ?_
  exact merge_adjacent_chain a.length b.length _ 0 0 0 0 0 (le_refl 0) (le_refl 0) hc.1

theorem opcodes_go_tile (la lb : Nat) :
    ∀ (blocks : List (Nat × Nat × Nat)) (i j : Nat),
      BChainTo la lb i j blocks → OpsTile la lb i j (opcodes_go i j blocks) := by
  intro blocks
  induction blocks with
  | nil => exact fun i j h => h
  | cons blk rest ih =>
    intro i j h
    obtain ⟨ai, bj, size⟩ := blk
    obtain ⟨hi, hj, htail⟩ := h
    have heq : ∀ i0 j0, i0 = ai → j0 = bj →
        OpsTile la lb i0 j0
          ((if size ≠ 0 then [⟨Tag.equal, ai, ai + size, bj, bj + size⟩] else []) ++
            opcodes_go (ai + size) (bj + size) rest) := by
      intro i0 j0 hi0 hj0
      subst hi0
      subst hj0
      by_cases hs : size ≠ 0
      · rw [if_pos hs]
        exact ⟨rfl, rfl,
          ⟨show i0 < i0 + size by omega, show j0 < j0 + size by omega,
            show i0 + size - i0 = j0 + size - j0 by omega⟩, ih _ _ htail⟩
      · rw [if_neg hs]
        push_neg at hs
        subst hs
        simpa using ih _ _ (by simpa using htail)
    simp only at hi hj htail
    unfold opcodes_go
    by_cases h1 : i < ai ∧ j < bj
    · rw [if_pos h1]
      exact ⟨rfl, rfl, ⟨h1.1, h1.2⟩, heq ai bj rfl rfl⟩
    · rw [if_neg h1]
      by_cases h2 : i < ai
      · rw [if_pos h2]
        have hjb : j = bj := by omega
        refine ⟨rfl, rfl, ⟨h2, hjb.symm⟩, ?_⟩
        subst hjb
        exact heq ai j rfl rfl
      · rw [if_neg h2]
        have hia : i = ai := by omega
        by_cases h3 : j < bj
        · rw [if_pos h3]
          refine ⟨rfl, rfl, ⟨hia.symm, h3⟩, ?_⟩
          subst hia
          exact heq i bj rfl rfl
        · rw [if_neg h3]
          have hjb : j = bj := by omega
          subst hia
          subst hjb
          simpa using heq i j rfl rfl

theorem get_opcodes_tile (a b : List Char) :
    OpsTile a.length b.length 0 0 (get_opcodes a b) :=
  opcodes_go_tile a.length b.length _ 0 0 (get_matching_blocks_chain a b)

attribute [irreducible] find_longest_match get_matching_blocks get_opcodes

theorem ops_tile_le (la lb : Nat) :
    ∀ (ops : List Op) (i j : Nat), OpsTile la lb i j ops → i ≤ la ∧ j ≤ lb := by
  intro ops
  induction ops with
  | nil => exact fun i j h => ⟨le_of_eq h.1, le_of_eq h.2⟩
  | cons op rest ih =>
    intro i j h
    obtain ⟨h1, h2, htag, htail⟩ := h
    have hrec := ih op.i2 op.j2 htail
    obtain ⟨tag, i1, i2, j1, j2⟩ := op
    cases tag <;> simp only at htag h1 h2 hrec ⊢ <;> omega

theorem range_map_getD {α : Type} (s : List α) (d : α) :
    ∀ (n j : Nat), j + n ≤ s.length →
      (List.range n).map (fun k => s.getD (j + k) d) = (s.drop j).take n := by
  intro n
  induction n with
  | zero => simp
  | succ n ih =>
    intro j h
    rw [List.range_succ, List.map_append, ih j (by omega)]
    simp only [List.map_cons, List.map_nil]
    rw [List.take_succ]
    congr 1
    have hop : (s.drop j)[n]? = some (s.getD (j + n) d) := by
      rw [List.getElem?_drop, List.getElem?_eq_getElem (by omega)]
      rw [List.getD_eq_getElem s d (by omega)]
    rw [hop]
    rfl

theorem drop_take_drop {α : Type} (s : List α) (j n : Nat) :
    (s.drop j).take n ++ s.drop (j + n) = s.drop j := by
  rw [← List.drop_drop]
  exact List.take_append_drop n (s.drop j)

theorem align_ops_chars (wc : List CharTs) (s : List Char) (la : Nat) :
    ∀ (ops : List Op) (i j : Nat) (res : List CharTs) (ct : ℚ),
      OpsTile la s.length i j ops →
      (align_ops wc s ops res ct).map (·.char) =
        res.map (·.char) ++ s.drop j := by
  intro ops
  induction ops with
  | nil =>
    intro i j res ct h
    rw [show align_ops wc s [] res ct = res from rfl, h.2, List.drop_length,
      List.append_nil]
  | cons op rest ih =>
    intro i j res ct h
    obtain ⟨h1, h2, htag, htail⟩ := h
    have hj2 : op.j2 ≤ s.length := (ops_tile_le la s.length rest op.i2 op.j2 htail).2
    obtain ⟨tag, i1, i2, j1, j2⟩ := op
    simp only at h1 h2 htag hj2 htail
    subst h1
    subst h2
    have hseg : j1 ≤ j2 → ∀ f g : Nat → ℚ,
        ((List.range (j2 - j1)).map fun k =>
          (⟨s.getD (j1 + k) ' ', f k, g k⟩ : CharTs)).map (·.char) =
          (s.drop j1).take (j2 - j1) := by
      intro hj f g
      rw [List.map_map]
      rw [show ((fun x : CharTs => x.char) ∘ fun k =>
          (⟨s.getD (j1 + k) ' ', f k, g k⟩ : CharTs)) =
          fun k => s.getD (j1 + k) ' ' from rfl]
      exact range_map_getD s ' ' (j2 - j1) j1 (by omega)
    have hfin : ∀ hj : j1 ≤ j2,
        (s.drop j1).take (j2 - j1) ++ s.drop j2 = s.drop j1 := by
      intro hj
      have hd := drop_take_drop s j1 (j2 - j1)
      rw [show j1 + (j2 - j1) = j2 by omega] at hd
      exact hd
    cases tag with
    | equal =>
      simp only [align_ops]
      rw [ih i2 j2 _ _ htail, List.map_append, hseg (by omega), List.append_assoc,
        hfin (by omega)]
    | replace =>
      simp only [align_ops]
      rw [if_pos (show 0 < j2 - j1 by omega)]
      rw [ih i2 j2 _ _ htail, List.map_append, hseg (by omega), List.append_assoc,
        hfin (by omega)]
    | delete =>
      simp only [align_ops]
      rw [ih i2 j2 _ _ htail, htag.2]
    | insert =>
      simp only [align_ops]
      rw [ih i2 j2 _ _ htail, List.map_append, hseg (by omega), List.append_assoc,
        hfin (by omega)]

theorem step2_force_alignment_chars (ws : List WordTs) (script : List Char) :
    (step2_force_alignment ws script).map (·.char) =
      script.filter (· ≠ '\n') := by
  have h := align_ops_chars (whisper_char_list ws) (script.filter (· ≠ '\n'))
    ((whisper_char_list ws).map (·.char)).length
    (get_opcodes ((whisper_char_list ws).map (·.char))
      (script.filter (· ≠ '\n')))
    0 0 [] (step2_ct0 (whisper_char_list ws))
    (get_opcodes_tile ((whisper_char_list ws).map (·.char))
      (script.filter (· ≠ '\n')))
  rw [List.drop_zero, List.map_nil, List.nil_append] at h
  exact h

theorem step2_force_alignment_length (ws : List WordTs) (script : List Char) :
    (step2_force_alignment ws script).length =
      (script.filter (· ≠ '\n')).length := by
  have h := congrArg List.length (step2_force_alignment_chars ws script)
  rwa [List.length_map] at h

theorem whisper_char_list_se (ws : List WordTs)
    (hse : ∀ w ∈ ws, w.start ≤ w.«end») :
    ∀ x ∈ whisper_char_list ws, x.start ≤ x.«end» := by
  intro x hx
  rw [whisper_char_list, List.mem_flatMap] at hx
  obtain ⟨w, hw, hxw⟩ := hx
  rw [List.mem_map] at hxw
  obtain ⟨c, _, rfl⟩ := hxw
  exact hse w hw

theorem whisper_char_list_pairwise (ws : List WordTs) (h : WordsOrdered ws) :
    List.Pairwise (fun x y : CharTs =>
      x.start ≤ y.start ∧ x.«end» ≤ y.«end» ∧ x.start ≤ y.«end»)
      (whisper_char_list ws) := by
  rw [whisper_char_list, List.pairwise_flatMap]
  constructor
  · intro w hw
    refine List.pairwise_of_forall_mem_list ?_
    intro x hx y hy
    rw [List.mem_map] at hx hy
    obtain ⟨c, _, rfl⟩ := hx
    obtain ⟨c', _, rfl⟩ := hy
    exact ⟨le_refl _, le_refl _, h.1 w hw⟩
  · refine List.Pairwise.imp_of_mem ?_ h.2
    intro u v hu hv huv x hx y hy
    rw [List.mem_map] at hx hy
    obtain ⟨c, _, rfl⟩ := hx
    obtain ⟨c', _, rfl⟩ := hy
    refine ⟨?_, ?_, ?_⟩
    · show u.start ≤ v.start
      exact le_trans (h.1 u hu) huv
    · show u.«end» ≤ v.«end»
      exact le_trans huv (h.1 v hv)
    · show u.start ≤ v.«end»
      exact le_trans (h.1 u hu) (le_trans huv (h.1 v hv))

theorem whisper_char_list_weak_mono (ws : List WordTs) (h : WordsOrdered ws) :
    CTWeakMono (whisper_char_list ws) := by
  intro m m' hmm hm'
  have hpw := whisper_char_list_pairwise ws h
  rw [List.pairwise_iff_getElem] at hpw
  rcases Nat.lt_or_ge m m' with hlt | hge
  · have := hpw m m' (by omega) hm' hlt
    rw [List.getD_eq_getElem _ dCT (by omega), List.getD_eq_getElem _ dCT hm']
    exact this
  · have hmeq : m = m' := by omega
    subst hmeq
    rw [List.getD_eq_getElem _ dCT hm']
    have hse := whisper_char_list_se ws h.1 _ (List.getElem_mem hm')
    exact ⟨le_refl _, le_refl _, hse⟩

theorem align_ops_se (wc : List CharTs) (s : List Char) (lb : Nat)
    (hm : CTWeakMono wc) :
    ∀ (ops : List Op) (i j : Nat) (res : List CharTs) (ct : ℚ),
      OpsTile wc.length lb i j ops →
      (∀ x ∈ res, x.start ≤ x.«end») →
      ∀ x ∈ align_ops wc s ops res ct, x.start ≤ x.«end» := by
  intro ops
  induction ops with
  | nil => exact fun i j res ct _ hres => hres
  | cons op rest ih =>
    intro i j res ct h hres
    obtain ⟨h1, h2, htag, htail⟩ := h
    have hi2 : op.i2 ≤ wc.length := (ops_tile_le wc.length lb rest op.i2 op.j2 htail).1
    obtain ⟨tag, i1, i2, j1, j2⟩ := op
    simp only at h1 h2 htag hi2 htail
    subst h1
    subst h2
    cases tag with
    | equal =>
      simp only [align_ops]
      refine ih i2 j2 _ _ htail ?_
      intro x hx
      rcases List.mem_append.1 hx with hx | hx
      · exact hres x hx
      · rw [List.mem_map] at hx
        obtain ⟨k, hk, rfl⟩ := hx
        rw [List.mem_range] at hk
        show (wc.getD (i1 + k) dCT).start ≤ (wc.getD (i1 + k) dCT).«end»
        exact (hm (i1 + k) (i1 + k) (le_refl _) (by omega)).2.2
    | replace =>
      simp only [align_ops]
      rw [if_pos (show i1 < i2 from htag.1), if_pos (show i1 < i2 from htag.1),
        if_pos (show 0 < j2 - j1 by omega)]
      refine ih i2 j2 _ _ htail ?_
      intro x hx
      rcases List.mem_append.1 hx with hx | hx
      · exact hres x hx
      · rw [List.mem_map] at hx
        obtain ⟨k, hk, rfl⟩ := hx
        rw [List.mem_range] at hk
        have hse : (wc.getD i1 dCT).start ≤ (wc.getD (i2 - 1) dCT).«end» :=
          (hm i1 (i2 - 1) (by omega) (by omega)).2.2
        have hq : (0:ℚ) ≤ ((wc.getD (i2 - 1) dCT).«end» - (wc.getD i1 dCT).start) /
            ((j2 - j1 : ℕ) : ℚ) := by
          apply div_nonneg
          · exact sub_nonneg.2 hse
          · positivity
        show (wc.getD i1 dCT).start + (k : ℚ) *
            (((wc.getD (i2 - 1) dCT).«end» - (wc.getD i1 dCT).start) / ((j2 - j1 : ℕ) : ℚ)) ≤
          (wc.getD i1 dCT).start + ((k : ℚ) + 1) *
            (((wc.getD (i2 - 1) dCT).«end» - (wc.getD i1 dCT).start) / ((j2 - j1 : ℕ) : ℚ))
        have : (k : ℚ) ≤ (k : ℚ) + 1 := by linarith
        nlinarith
    | delete =>
      simp only [align_ops]
      exact ih i2 j2 _ _ htail hres
    | insert =>
      simp only [align_ops]
      refine ih i2 j2 _ _ htail ?_
      intro x hx
      rcases List.mem_append.1 hx with hx | hx
      · exact hres x hx
      · rw [List.mem_map] at hx
        obtain ⟨k, hk, rfl⟩ := hx
        show ct ≤ ct
        exact le_refl ct

theorem ct_ordered_se (l : List CharTs) (h : CTOrdered l) :
    ∀ m, m < l.length → (l.getD m dCT).start ≤ (l.getD m dCT).«end» := by
  intro m hm
  rw [List.getD_eq_getElem _ dCT hm]
  exact h.1 _ (List.getElem_mem hm)

theorem ct_ordered_es (l : List CharTs) (h : CTOrdered l) :
    ∀ m m', m < m' → m' < l.length →
      (l.getD m dCT).«end» ≤ (l.getD m' dCT).start := by
  intro m m' hmm hm'
  rw [List.getD_eq_getElem _ dCT (by omega), List.getD_eq_getElem _ dCT hm']
  exact (List.pairwise_iff_getElem.1 h.2) m m' (by omega) hm' hmm

theorem ct_ordered_ss (l : List CharTs) (h : CTOrdered l) :
    ∀ m m', m ≤ m' → m' < l.length →
      (l.getD m dCT).start ≤ (l.getD m' dCT).start := by
  intro m m' hmm hm'
  rcases Nat.lt_or_ge m m' with hlt | hge
  · exact le_trans (ct_ordered_se l h m (by omega)) (ct_ordered_es l h m m' hlt hm')
  · have : m = m' := by omega
    subst this
    exact le_refl _

theorem align_ops_mono (wc : List CharTs) (s : List Char) (lb : Nat)
    (h : CTOrdered wc) :
    ∀ (ops : List Op) (i j : Nat) (res : List CharTs) (ct : ℚ),
      OpsTile wc.length lb i j ops →
      (∀ m, i ≤ m → m < wc.length → ct ≤ (wc.getD m dCT).start) →
      List.Pairwise (fun x y : CharTs => x.start ≤ y.start) res →
      (∀ x ∈ res, x.start ≤ ct) →
      List.Pairwise (fun x y : CharTs => x.start ≤ y.start)
        (align_ops wc s ops res ct) := by
  intro ops
  induction ops with
  | nil => exact fun i j res ct _ _ hpw _ => hpw
  | cons op rest ih =>
    intro i j res ct htile hct hpw hresct
    obtain ⟨h1, h2, htag, htail⟩ := htile
    have hi2 : op.i2 ≤ wc.length := (ops_tile_le wc.length lb rest op.i2 op.j2 htail).1
    obtain ⟨tag, i1, i2, j1, j2⟩ := op
    simp only at h1 h2 htag hi2 htail
    subst h1
    subst h2
    cases tag with
    | equal =>
      simp only [align_ops]
      rw [if_pos (show j1 < j2 from htag.2.1)]
      have hn : i1 + (j2 - j1) = i2 := by omega
      have hm0lt : i1 + (j2 - j1) - 1 < wc.length := by omega
      have hstart : ∀ k, k < j2 - j1 → ct ≤ (wc.getD (i1 + k) dCT).start := by
        intro k hk
        exact hct (i1 + k) (by omega) (by omega)
      refine ih i2 j2 _ _ htail ?_ ?_ ?_
      · intro m hm hmlen
        exact ct_ordered_es wc h (i1 + (j2 - j1) - 1) m (by omega) hmlen
      · rw [List.pairwise_append]
        refine ⟨hpw, ?_, ?_⟩
        · rw [List.pairwise_map]
          refine List.Pairwise.imp_of_mem ?_ (List.pairwise_lt_range (j2 - j1))
          intro a b ha hb hab
          rw [List.mem_range] at ha hb
          show (wc.getD (i1 + a) dCT).start ≤ (wc.getD (i1 + b) dCT).start
          exact ct_ordered_ss wc h _ _ (by omega) (by omega)
        · intro x hx y hy
          rw [List.mem_map] at hy
          obtain ⟨k, hk, rfl⟩ := hy
          rw [List.mem_range] at hk
          show x.start ≤ (wc.getD (i1 + k) dCT).start
          exact le_trans (hresct x hx) (hstart k hk)
      · intro x hx
        rcases List.mem_append.1 hx with hx | hx
        · refine le_trans (hresct x hx) ?_
          refine le_trans (hct i1 (le_refl _) (by omega)) ?_
          exact le_trans (ct_ordered_ss wc h i1 _ (by omega) hm0lt)
            (ct_ordered_se wc h _ hm0lt)
        · rw [List.mem_map] at hx
          obtain ⟨k, hk, rfl⟩ := hx
          rw [List.mem_range] at hk
          show (wc.getD (i1 + k) dCT).start ≤ (wc.getD (i1 + (j2 - j1) - 1) dCT).«end»
          exact le_trans (ct_ordered_ss wc h _ _ (by omega) hm0lt)
            (ct_ordered_se wc h _ hm0lt)
    | replace =>
      simp only [align_ops]
      rw [if_pos (show i1 < i2 from htag.1), if_pos (show i1 < i2 from htag.1),
        if_pos (show 0 < j2 - j1 by omega)]
      have hst : ct ≤ (wc.getD i1 dCT).start := hct i1 (le_refl _) (by omega)
      have hse : (wc.getD i1 dCT).start ≤ (wc.getD (i2 - 1) dCT).«end» :=
        le_trans (ct_ordered_ss wc h i1 (i2 - 1) (by omega) (by omega))
          (ct_ordered_se wc h _ (by omega))
      have hq : (0:ℚ) ≤ ((wc.getD (i2 - 1) dCT).«end» - (wc.getD i1 dCT).start) /
          ((j2 - j1 : ℕ) : ℚ) := by
        apply div_nonneg
        · exact sub_nonneg.2 hse
        · positivity
      have hnne : ((j2 - j1 : ℕ) : ℚ) ≠ 0 := by
        have : 0 < j2 - j1 := by omega
        positivity
      have htop : ∀ k : ℕ, k ≤ j2 - j1 →
          (wc.getD i1 dCT).start + (k : ℚ) *
            (((wc.getD (i2 - 1) dCT).«end» - (wc.getD i1 dCT).start) / ((j2 - j1 : ℕ) : ℚ)) ≤
          (wc.getD (i2 - 1) dCT).«end» := by
        intro k hk
        have hcast : (k : ℚ) ≤ ((j2 - j1 : ℕ) : ℚ) := by exact_mod_cast hk
        have hfull : (wc.getD i1 dCT).start + ((j2 - j1 : ℕ) : ℚ) *
            (((wc.getD (i2 - 1) dCT).«end» - (wc.getD i1 dCT).start) / ((j2 - j1 : ℕ) : ℚ)) =
            (wc.getD (i2 - 1) dCT).«end» := by
          field_simp
        nlinarith
      refine ih i2 j2 _ _ htail ?_ ?_ ?_
      · intro m hm hmlen
        exact ct_ordered_es wc h (i2 - 1) m (by omega) hmlen
      · rw [List.pairwise_append]
        refine ⟨hpw, ?_, ?_⟩
        · rw [List.pairwise_map]
          refine List.Pairwise.imp_of_mem ?_ (List.pairwise_lt_range (j2 - j1))
          intro a b ha hb hab
          rw [List.mem_range] at ha hb
          show (wc.getD i1 dCT).start + (a : ℚ) * _ ≤ (wc.getD i1 dCT).start + (b : ℚ) * _
          have : (a : ℚ) ≤ (b : ℚ) := by exact_mod_cast Nat.le_of_lt hab
          nlinarith
        · intro x hx y hy
          rw [List.mem_map] at hy
          obtain ⟨k, hk, rfl⟩ := hy
          show x.start ≤ (wc.getD i1 dCT).start + (k : ℚ) * _
          have : (0:ℚ) ≤ (k : ℚ) * (((wc.getD (i2 - 1) dCT).«end» -
              (wc.getD i1 dCT).start) / ((j2 - j1 : ℕ) : ℚ)) := by
            apply mul_nonneg
            · positivity
            · exact hq
          have hxct := hresct x hx
          linarith
      · intro x hx
        rcases List.mem_append.1 hx with hx | hx
        · exact le_trans (hresct x hx) (le_trans hst hse)
        · rw [List.mem_map] at hx
          obtain ⟨k, hk, rfl⟩ := hx
          rw [List.mem_range] at hk
          show (wc.getD i1 dCT).start + (k : ℚ) * _ ≤ (wc.getD (i2 - 1) dCT).«end»
          exact htop k (by omega)
    | delete =>
      simp only [align_ops]
      rw [if_pos (show i1 < i2 from htag.1)]
      refine ih i2 j2 _ _ htail ?_ hpw ?_
      · intro m hm hmlen
        exact ct_ordered_es wc h (i2 - 1) m (by omega) hmlen
      · intro x hx
        refine le_trans (hresct x hx) ?_
        refine le_trans (hct i1 (le_refl _) (by omega)) ?_
        exact le_trans (ct_ordered_ss wc h i1 (i2 - 1) (by omega) (by omega))
          (ct_ordered_se wc h _ (by omega))
    | insert =>
      simp only [align_ops]
      have hi2i : i2 = i1 := htag.1
      subst hi2i
      refine ih i2 j2 _ _ htail hct ?_ ?_
      · rw [List.pairwise_append]
        refine ⟨hpw, ?_, ?_⟩
        · refine List.pairwise_of_forall_mem_list ?_
          intro x hx y hy
          rw [List.mem_map] at hx hy
          obtain ⟨k, _, rfl⟩ := hx
          obtain ⟨k', _, rfl⟩ := hy
          show ct ≤ ct
          exact le_refl ct
        · intro x hx y hy
          rw [List.mem_map] at hy
          obtain ⟨k, _, rfl⟩ := hy
          show x.start ≤ ct
          exact hresct x hx
      · intro x hx
        rcases List.mem_append.1 hx with hx | hx
        · exact hresct x hx
        · rw [List.mem_map] at hx
          obtain ⟨k, _, rfl⟩ := hx
          show ct ≤ ct
          exact le_refl ct

theorem flm_best_noupdate (F : Nat → Nat) (i : Nat) :
    ∀ (l : List Nat) (st : Nat × Nat × Nat),
      (∀ j ∈ l, (if j = 0 then 0 else F (j - 1)) + 1 ≤ st.2.2) →
      flm_best F i l st = st := by
  intro l
  induction l with
  | nil => exact fun st _ => rfl
  | cons j l ih =>
    intro st hb
    have hstep : flm_best F i (j :: l) st =
        flm_best F i l
          (let k := (if j = 0 then 0 else F (j - 1)) + 1
           if st.2.2 < k then (i + 1 - k, j + 1 - k, k) else st) := rfl
    rw [hstep]
    rw [if_neg (by
      have := hb j (List.mem_cons_self j l)
      omega)]
    exact ih st fun x hx => hb x (List.mem_cons_of_mem j hx)

theorem flm_js_self_split (s : List Char) (t : Nat) (ht : t < s.length) :
    flm_js s 0 s.length (s.getD t ' ') =
      (List.range t).filter
        (fun j => decide (0 ≤ j) && decide (j < s.length) &&
          (s.getD j ' ' == s.getD t ' ')) ++
      t :: ((List.range (s.length - t - 1)).map (fun x => t + (x + 1))).filter
        (fun j => decide (0 ≤ j) && decide (j < s.length) &&
          (s.getD j ' ' == s.getD t ' ')) := by
  have hr : List.range s.length =
      List.range t ++ t :: (List.range (s.length - t - 1)).map (fun x => t + (x + 1)) := by
    conv_lhs => rw [show s.length = t + (s.length - t) by omega, List.range_add]
    congr 1
    rw [show s.length - t = (s.length - t - 1) + 1 by omega, List.range_succ_eq_map]
    simp only [List.map_cons, List.map_map, Nat.add_zero]
    rfl
  unfold flm_js
  rw [hr, List.filter_append, List.filter_cons]
  rw [if_pos (by simp [ht])]

theorem flm_best_append (F : Nat → Nat) (i : Nat) (l1 l2 : List Nat)
    (st : Nat × Nat × Nat) :
    flm_best F i (l1 ++ l2) st = flm_best F i l2 (flm_best F i l1 st) := by
  unfold flm_best
  exact List.foldl_append _ _ _ _

theorem flm_dp_self_inv (s : List Char) :
    ∀ t, t ≤ s.length →
      (∀ j, ((List.range' 0 t).foldl
        (fun (acc : (Nat → Nat) × (Nat × Nat × Nat)) i =>
          (flm_row acc.1 s 0 s.length (s.getD i ' '),
           flm_best acc.1 i (flm_js s 0 s.length (s.getD i ' ')) acc.2))
        (fun _ => 0, (0, 0, 0))).1 j ≤ t ∧
        ((List.range' 0 t).foldl
        (fun (acc : (Nat → Nat) × (Nat × Nat × Nat)) i =>
          (flm_row acc.1 s 0 s.length (s.getD i ' '),
           flm_best acc.1 i (flm_js s 0 s.length (s.getD i ' ')) acc.2))
        (fun _ => 0, (0, 0, 0))).1 j ≤ j + 1) ∧
      (0 < t → ((List.range' 0 t).foldl
        (fun (acc : (Nat → Nat) × (Nat × Nat × Nat)) i =>
          (flm_row acc.1 s 0 s.length (s.getD i ' '),
           flm_best acc.1 i (flm_js s 0 s.length (s.getD i ' ')) acc.2))
        (fun _ => 0, (0, 0, 0))).1 (t - 1) = t) ∧
      ((List.range' 0 t).foldl
        (fun (acc : (Nat → Nat) × (Nat × Nat × Nat)) i =>
          (flm_row acc.1 s 0 s.length (s.getD i ' '),
           flm_best acc.1 i (flm_js s 0 s.length (s.getD i ' ')) acc.2))
        (fun _ => 0, (0, 0, 0))).2 = (0, 0, t) := by
  intro t
  induction t with
  | zero => exact fun _ => ⟨fun j => by simp, by simp, rfl⟩
  | succ t ih =>
    intro ht
    obtain ⟨ihF, ihD, ihB⟩ := ih (by omega)
    rw [List.range'_1_concat, Nat.zero_add, List.foldl_append]
    simp only [List.foldl_cons, List.foldl_nil]
    set F := ((List.range' 0 t).foldl
        (fun (acc : (Nat → Nat) × (Nat × Nat × Nat)) i =>
          (flm_row acc.1 s 0 s.length (s.getD i ' '),
           flm_best acc.1 i (flm_js s 0 s.length (s.getD i ' ')) acc.2))
        (fun _ => 0, (0, 0, 0))).1 with hF
    have hkt : (if t = 0 then 0 else F (t - 1)) + 1 = t + 1 := by
      by_cases ht0 : t = 0
      · simp [ht0]
      · rw [if_neg ht0, ihD (by omega)]
    refine ⟨?_, ?_, ?_⟩
    · intro j
      have hrb := flm_row_bound F s 0 s.length (s.getD t ' ') t (fun j => ⟨ihF j |>.1, by
        have := (ihF j).2
        omega⟩) j
      exact ⟨hrb.1, by
        have := hrb.2
        omega⟩
    · intro _
      simp only [Nat.add_sub_cancel]
      unfold flm_row
      rw [if_pos ⟨Nat.zero_le t, by omega, rfl⟩, hkt]
    · rw [ihB]
      rw [flm_js_self_split s t (by omega), flm_best_append]
      have h1 : flm_best F t
          ((List.range t).filter
            (fun j => decide (0 ≤ j) && decide (j < s.length) &&
              (s.getD j ' ' == s.getD t ' '))) (0, 0, t) = (0, 0, t) := by
        refine flm_best_noupdate F t _ _ ?_
        intro j hj
        have hjt : j < t := by
          have := List.mem_filter.1 hj
          have := List.mem_range.1 this.1
          omega
        show (if j = 0 then 0 else F (j - 1)) + 1 ≤ t
        by_cases hj0 : j = 0
        · subst hj0
          rw [if_pos rfl]
          omega
        · rw [if_neg hj0]
          have := (ihF (j - 1)).2
          omega
      rw [h1]
      have hupd : (if (((0:Nat), (0:Nat), t) : Nat × Nat × Nat).2.2 <
            (if t = 0 then 0 else F (t - 1)) + 1 then
            ((t + 1 - ((if t = 0 then 0 else F (t - 1)) + 1),
              t + 1 - ((if t = 0 then 0 else F (t - 1)) + 1),
              (if t = 0 then 0 else F (t - 1)) + 1) : Nat × Nat × Nat)
          else ((0, 0, t) : Nat × Nat × Nat)) = ((0, 0, t + 1) : Nat × Nat × Nat) := by
        rw [hkt]
        rw [if_pos (show (((0:Nat), (0:Nat), t) : Nat × Nat × Nat).2.2 < t + 1 from
          Nat.lt_succ_self t)]
        simp
      have h2 : flm_best F t
          (t :: ((List.range (s.length - t - 1)).map (fun x => t + (x + 1))).filter
            (fun j => decide (0 ≤ j) && decide (j < s.length) &&
              (s.getD j ' ' == s.getD t ' '))) ((0, 0, t) : Nat × Nat × Nat) =
          flm_best F t
            (((List.range (s.length - t - 1)).map (fun x => t + (x + 1))).filter
              (fun j => decide (0 ≤ j) && decide (j < s.length) &&
                (s.getD j ' ' == s.getD t ' '))) ((0, 0, t + 1) : Nat × Nat × Nat) := by
        rw [show flm_best F t
          (t :: ((List.range (s.length - t - 1)).map (fun x => t + (x + 1))).filter
            (fun j => decide (0 ≤ j) && decide (j < s.length) &&
              (s.getD j ' ' == s.getD t ' '))) ((0, 0, t) : Nat × Nat × Nat) =
          flm_best F t
            (((List.range (s.length - t - 1)).map (fun x => t + (x + 1))).filter
              (fun j => decide (0 ≤ j) && decide (j < s.length) &&
                (s.getD j ' ' == s.getD t ' ')))
            (if (((0:Nat), (0:Nat), t) : Nat × Nat × Nat).2.2 <
                (if t = 0 then 0 else F (t - 1)) + 1 then
              ((t + 1 - ((if t = 0 then 0 else F (t - 1)) + 1),
                t + 1 - ((if t = 0 then 0 else F (t - 1)) + 1),
                (if t = 0 then 0 else F (t - 1)) + 1) : Nat × Nat × Nat)
            else ((0, 0, t) : Nat × Nat × Nat)) from rfl]
        rw [hupd]
      rw [h2]
      have h3 : flm_best F t
          (((List.range (s.length - t - 1)).map (fun x => t + (x + 1))).filter
            (fun j => decide (0 ≤ j) && decide (j < s.length) &&
              (s.getD j ' ' == s.getD t ' '))) ((0, 0, t + 1) : Nat × Nat × Nat) =
          ((0, 0, t + 1) : Nat × Nat × Nat) := by
        refine flm_best_noupdate F t _ _ ?_
        intro j hj
        show (if j = 0 then 0 else F (j - 1)) + 1 ≤ t + 1
        by_cases hj0 : j = 0
        · subst hj0
          rw [if_pos rfl]
          omega
        · rw [if_neg hj0]
          have := (ihF (j - 1)).1
          omega
      rw [h3]

theorem flm_dp_self (s : List Char) :
    flm_dp s s 0 s.length 0 s.length = (0, 0, s.length) := by
  unfold flm_dp
  rw [Nat.sub_zero]
  exact (flm_dp_self_inv s s.length (le_refl _)).2.2

theorem find_longest_match_self (s : List Char) :
    find_longest_match s s 0 s.length 0 s.length = (0, 0, s.length) := by
  unfold find_longest_match flm_after_lo
  rw [flm_dp_self]
  rw [show flm_extend_lo s s 0 0 ((0, 0, s.length) : Nat × Nat × Nat).1
      ((0, 0, s.length) : Nat × Nat × Nat) = ((0, 0, s.length) : Nat × Nat × Nat)
    from rfl]
  rw [show s.length - (((0, 0, s.length) : Nat × Nat × Nat).1 +
      ((0, 0, s.length) : Nat × Nat × Nat).2.2) = 0 by
    simp]
  rfl

theorem get_matching_blocks_self (s : List Char) :
    get_matching_blocks s s =
      (if s.length = 0 then [((0 : Nat), (0 : Nat), (0 : Nat))]
       else [(0, 0, s.length), (s.length, s.length, 0)]) := by
  unfold get_matching_blocks
  rw [matching_blocks_rec_succ, find_longest_match_self]
  by_cases hn : s.length = 0
  · rw [if_pos hn]
    rw [if_pos (show ((0, 0, s.length) : Nat × Nat × Nat).2.2 = 0 from hn)]
    show merge_adjacent 0 0 0 (block_sort []) ++ [(s.length, s.length, 0)] =
      [((0 : Nat), (0 : Nat), (0 : Nat))]
    rw [show merge_adjacent 0 0 0 (block_sort []) = [] from rfl]
    rw [hn]
    rfl
  · rw [if_neg hn]
    rw [if_neg (show ¬ ((0, 0, s.length) : Nat × Nat × Nat).2.2 = 0 from hn)]
    rw [if_neg (show ¬ (0 < ((0, 0, s.length) : Nat × Nat × Nat).1 ∧
        0 < ((0, 0, s.length) : Nat × Nat × Nat).2.1) by
      intro hc
      exact absurd hc.1 (by omega))]
    rw [if_neg (show ¬ (((0, 0, s.length) : Nat × Nat × Nat).1 +
        ((0, 0, s.length) : Nat × Nat × Nat).2.2 < s.length ∧
        ((0, 0, s.length) : Nat × Nat × Nat).2.1 +
        ((0, 0, s.length) : Nat × Nat × Nat).2.2 < s.length) by
      intro hc
      have := hc.1
      simp at this)]
    rw [List.nil_append]
    show merge_adjacent 0 0 0 (block_sort [((0 : Nat), (0 : Nat), s.length)]) ++
        [(s.length, s.length, 0)] =
      [(0, 0, s.length), (s.length, s.length, 0)]
    rw [show block_sort [((0 : Nat), (0 : Nat), s.length)] =
      [((0 : Nat), (0 : Nat), s.length)] from rfl]
    rw [show merge_adjacent 0 0 0 [((0 : Nat), (0 : Nat), s.length)] =
        [((0 : Nat), (0 : Nat), 0 + s.length)] from by
      unfold merge_adjacent
      rw [if_pos ⟨rfl, rfl⟩]
      unfold merge_adjacent
      rw [if_pos (show 0 + s.length ≠ 0 by omega)]]
    rw [Nat.zero_add]
    rfl

theorem get_opcodes_self (s : List Char) :
    get_opcodes s s =
      (if s.length = 0 then []
       else [⟨Tag.equal, 0, s.length, 0, s.length⟩]) := by
  unfold get_opcodes
  rw [get_matching_blocks_self]
  by_cases hn : s.length = 0
  · rw [if_pos hn, if_pos hn]
    unfold opcodes_go
    rw [if_neg (by omega)]
    rw [if_neg (by omega)]
    rw [if_neg (by omega)]
    rw [if_neg (by simp)]
    rfl
  · rw [if_neg hn, if_neg hn]
    unfold opcodes_go
    rw [if_neg (by omega)]
    rw [if_neg (by omega)]
    rw [if_neg (by omega)]
    rw [if_pos (show s.length ≠ 0 from hn)]
    simp only [List.nil_append, Nat.zero_add]
    unfold opcodes_go
    rw [if_neg (by omega)]
    rw [if_neg (by omega)]
    rw [if_neg (by omega)]
    rw [if_neg (by simp)]
    rfl

theorem charts_ext (x y : CharTs) (h1 : x.char = y.char)
    (h2 : x.start = y.start) (h3 : x.«end» = y.«end») : x = y := by
  cases x
  cases y
  simp only at h1 h2 h3
  rw [h1, h2, h3]

theorem c5_core (ws : List WordTs) (script : List Char)
    (h : (whisper_char_list ws).map (·.char) = script.filter (· ≠ '\n')) :
    step2_force_alignment ws script = whisper_char_list ws := by
  unfold step2_force_alignment
  rw [← h]
  rw [get_opcodes_self ((whisper_char_list ws).map (·.char))]
  by_cases hn : ((whisper_char_list ws).map (·.char)).length = 0
  · rw [if_pos hn]
    rw [List.length_map, List.length_eq_zero] at hn
    rw [hn]
    rfl
  · rw [if_neg hn]
    simp only [align_ops]
    rw [List.nil_append]
    refine List.ext_getElem ?_ ?_
    · simp
    · intro k h1 h2
      rw [List.getElem_map]
      have hk : k < ((whisper_char_list ws).map (·.char)).length := by
        simp only [List.length_map, List.length_range] at h1 ⊢
        omega
      have hkwc : k < (whisper_char_list ws).length := by
        rw [List.length_map] at hk
        exact hk
      have hkr : k < (List.range (((whisper_char_list ws).map (·.char)).length - 0)).length := by
        simp only [List.length_range]
        omega
      have hrk : (List.range (((whisper_char_list ws).map (·.char)).length - 0))[k] = k :=
        List.getElem_range k hkr
      rw [hrk]
      refine charts_ext _ _ ?_ ?_ ?_
      · show ((whisper_char_list ws).map (·.char)).getD (0 + k) ' ' =
          ((whisper_char_list ws)[k]).char
        rw [Nat.zero_add, List.getD_eq_getElem _ _ hk, List.getElem_map]
      · show ((whisper_char_list ws).getD (0 + k) dCT).start = _
        rw [Nat.zero_add, List.getD_eq_getElem _ _ hkwc]
      · show ((whisper_char_list ws).getD (0 + k) dCT).«end» = _
        rw [Nat.zero_add, List.getD_eq_getElem _ _ hkwc]

theorem c5_tags (ws : List WordTs) (script : List Char)
    (h : (whisper_char_list ws).map (·.char) = script.filter (· ≠ '\n')) :
    ∀ op ∈ get_opcodes ((whisper_char_list ws).map (·.char))
      (script.filter (· ≠ '\n')), op.tag = Tag.equal := by
  rw [← h, get_opcodes_self]
  by_cases hn : ((whisper_char_list ws).map (·.char)).length = 0
  · rw [if_pos hn]
    intro op hop
    simp at hop
  · rw [if_neg hn]
    intro op hop
    rw [List.mem_singleton] at hop
    rw [hop]

theorem step4_char_eq_found (aligned : List CharTs) (a : Step4Acc)
    (acc0 : Option (ℚ × ℚ)) (c : Char) (k : Nat)
    (hc : skip_chars.contains c = false)
    (hfind : step4_find aligned a.char_idx c
      (min 100 (aligned.length - a.char_idx)) = some k) :
    step4_char aligned (a, acc0) c =
      ({ a with
          char_idx := a.char_idx + k + 1
          current_time := (aligned.getD (a.char_idx + k) dCT).«end»
          matched_count := a.matched_count + 1 },
        some ((acc0.map Prod.fst).getD (aligned.getD (a.char_idx + k) dCT).start,
          (aligned.getD (a.char_idx + k) dCT).«end»)) := by
  unfold step4_char
  rw [hc]
  simp only [Bool.false_eq_true, if_false, hfind]
  cases acc0 <;> rfl

theorem step4_char_eq_consume (aligned : List CharTs) (a : Step4Acc)
    (acc0 : Option (ℚ × ℚ)) (c : Char)
    (hc : skip_chars.contains c = false)
    (hfind : step4_find aligned a.char_idx c
      (min 100 (aligned.length - a.char_idx)) = none)
    (hlt : a.char_idx < aligned.length) :
    step4_char aligned (a, acc0) c =
      ({ a with
          char_idx := a.char_idx + 1
          current_time := (aligned.getD a.char_idx dCT).«end»
          fallback_count := a.fallback_count + 1 },
        some ((acc0.map Prod.fst).getD (aligned.getD a.char_idx dCT).start,
          (aligned.getD a.char_idx dCT).«end»)) := by
  unfold step4_char
  rw [hc]
  simp only [Bool.false_eq_true, if_false, hfind, hlt, if_true]
  cases acc0 <;> rfl

theorem step4_char_eq_exhaust (aligned : List CharTs) (a : Step4Acc)
    (acc0 : Option (ℚ × ℚ)) (c : Char)
    (hc : skip_chars.contains c = false)
    (hfind : step4_find aligned a.char_idx c
      (min 100 (aligned.length - a.char_idx)) = none)
    (hge : ¬ a.char_idx < aligned.length) :
    step4_char aligned (a, acc0) c =
      ({ a with fallback_count := a.fallback_count + 1 },
        some ((acc0.map Prod.fst).getD a.current_time, a.current_time)) := by
  unfold step4_char
  rw [hc]
  simp only [Bool.false_eq_true, if_false, hfind, hge]
  cases acc0 <;> rfl

theorem step4_find_at_cursor (aligned : List CharTs) (ci : Nat) (c : Char)
    (hc : skip_chars.contains c = false)
    (hlt : ci < aligned.length)
    (hchar : (aligned.getD ci dCT).char = c) :
    step4_find aligned ci c (min 100 (aligned.length - ci)) = some 0 := by
  unfold step4_find
  have hw : min 100 (aligned.length - ci) = (min 100 (aligned.length - ci) - 1) + 1 := by
    omega
  rw [hw, List.range_succ_eq_map]
  rw [List.find?_cons_of_pos]
  rw [Nat.add_zero, hchar, hc]
  simp

theorem step4_fold_exact (aligned : List CharTs) :
    ∀ (cs : List Char) (rest : List Char) (a : Step4Acc) (acc0 : Option (ℚ × ℚ)),
      (aligned.drop a.char_idx).map (·.char) = cs ++ rest →
      (∀ c ∈ cs, skip_chars.contains c = false) →
      (cs.foldl (step4_char aligned) (a, acc0)).1.matched_count =
        a.matched_count + cs.length ∧
      (cs.foldl (step4_char aligned) (a, acc0)).1.char_idx =
        a.char_idx + cs.length ∧
      (aligned.drop (cs.foldl (step4_char aligned) (a, acc0)).1.char_idx).map
        (·.char) = rest := by
  intro cs
  induction cs with
  | nil =>
    intro rest a acc0 hdrop _
    simpa using hdrop
  | cons c cs ih =>
    intro rest a acc0 hdrop hns
    have hc : skip_chars.contains c = false := hns c (List.mem_cons_self c cs)
    have hne : aligned.drop a.char_idx ≠ [] := by
      intro hcontra
      rw [hcontra] at hdrop
      simp at hdrop
    have hlt : a.char_idx < aligned.length := by
      by_contra hge
      rw [List.drop_eq_nil_of_le (by omega)] at hne
      exact hne rfl
    have hdechead := List.drop_eq_getElem_cons hlt
    rw [hdechead] at hdrop
    simp only [List.map_cons] at hdrop
    injection hdrop with hd1 hd2
    have hchar : (aligned.getD a.char_idx dCT).char = c := by
      rw [List.getD_eq_getElem _ _ hlt]
      exact hd1
    have hfind := step4_find_at_cursor aligned a.char_idx c hc hlt hchar
    rw [List.foldl_cons, step4_char_eq_found aligned a acc0 c 0 hc hfind]
    have hstep := ih (rest)
      { a with
        char_idx := a.char_idx + 0 + 1
        current_time := (aligned.getD (a.char_idx + 0) dCT).«end»
        matched_count := a.matched_count + 1 }
      (some ((acc0.map Prod.fst).getD (aligned.getD (a.char_idx + 0) dCT).start,
        (aligned.getD (a.char_idx + 0) dCT).«end»))
      (by
        simp only [Nat.add_zero]
        exact hd2)
      (fun x hx => hns x (List.mem_cons_of_mem c hx))
    refine ⟨?_, ?_, hstep.2.2⟩
    · rw [hstep.1]
      simp only [List.length_cons]
      omega
    · rw [hstep.2.1]
      simp only [List.length_cons]
      omega

theorem step4_emit_none (line : List Char) (r : Step4Acc × Option (ℚ × ℚ))
    (h : r.2 = none) : step4_emit line r = r.1 := by
  unfold step4_emit
  rw [h]

theorem step4_emit_some (line : List Char) (r : Step4Acc × Option (ℚ × ℚ))
    (p : ℚ × ℚ) (h : r.2 = some p) :
    step4_emit line r =
      { r.1 with
          final_subtitles := r.1.final_subtitles ++
            [⟨p.1, if p.2 ≤ p.1 then p.1 + 1/2 else p.2, line⟩] } := by
  unfold step4_emit
  rw [h]

theorem step4_emit_counts (line : List Char) (r : Step4Acc × Option (ℚ × ℚ)) :
    (step4_emit line r).matched_count = r.1.matched_count ∧
    (step4_emit line r).char_idx = r.1.char_idx ∧
    (step4_emit line r).current_time = r.1.current_time := by
  cases hr : r.2 with
  | none =>
    rw [step4_emit_none line r hr]
    exact ⟨rfl, rfl, rfl⟩
  | some p =>
    rw [step4_emit_some line r p hr]
    exact ⟨rfl, rfl, rfl⟩

theorem step4_lines_exact (aligned : List CharTs) :
    ∀ (lines : List (List Char)) (a : Step4Acc),
      (aligned.drop a.char_idx).map (·.char) = (lines.map clean_line).flatten →
      (∀ c ∈ (lines.map clean_line).flatten, skip_chars.contains c = false) →
      (lines.foldl (step4_line aligned) a).matched_count =
        a.matched_count + total_script_chars lines := by
  intro lines
  induction lines with
  | nil =>
    intro a _ _
    simp [total_script_chars]
  | cons l ls ih =>
    intro a hdrop hns
    rw [List.map_cons, List.flatten_cons] at hdrop hns
    rw [List.foldl_cons]
    by_cases h0 : clean_line l = []
    · have hl : step4_line aligned a l = a := by
        unfold step4_line
        rw [if_pos h0]
      rw [hl]
      rw [h0] at hdrop hns
      rw [List.nil_append] at hdrop hns
      rw [ih a hdrop hns]
      rw [show total_script_chars (l :: ls) = total_script_chars ls by
        simp [total_script_chars, h0]]
    · have hl : step4_line aligned a l =
          step4_emit l ((clean_line l).foldl (step4_char aligned) (a, none)) := by
        unfold step4_line
        rw [if_neg h0]
      rw [hl]
      have hex := step4_fold_exact aligned (clean_line l)
        ((ls.map clean_line).flatten) a none hdrop
        (fun c hc => hns c (List.mem_append.2 (Or.inl hc)))
      have hcnt := step4_emit_counts l
        ((clean_line l).foldl (step4_char aligned) (a, none))
      have hdropE : (aligned.drop
          (step4_emit l ((clean_line l).foldl (step4_char aligned) (a, none))).char_idx).map
            (·.char) = (ls.map clean_line).flatten := by
        rw [hcnt.2.1]
        exact hex.2.2
      have hih := ih (step4_emit l ((clean_line l).foldl (step4_char aligned) (a, none)))
        hdropE (fun c hc => hns c (List.mem_append.2 (Or.inr hc)))
      have htot : total_script_chars (l :: ls) =
          (clean_line l).length + total_script_chars ls := by
        simp [total_script_chars]
      rw [hih, hcnt.1, hex.1, htot]
      omega

theorem step4_find_lt (aligned : List CharTs) (ci : Nat) (c : Char) (w k : Nat)
    (h : step4_find aligned ci c w = some k) : k < w := by
  unfold step4_find at h
  exact List.mem_range.1 (List.mem_of_find?_eq_some h)

theorem step4_char_skip_eq (aligned : List CharTs)
    (st : Step4Acc × Option (ℚ × ℚ)) (c : Char)
    (hc : skip_chars.contains c = true) :
    step4_char aligned st c = st := by
  unfold step4_char
  rw [hc]
  simp

theorem step4_char_inv (aligned : List CharTs) (h : CTOrdered aligned)
    (st : Step4Acc × Option (ℚ × ℚ)) (c : Char)
    (hinv : Step4AccInv aligned st) :
    Step4AccInv aligned (step4_char aligned st c) := by
  obtain ⟨a, o⟩ := st
  obtain ⟨⟨h1, h2, h3, h4, h5⟩, hacc⟩ := hinv
  have h1 : a.char_idx ≤ aligned.length := h1
  have h2 : ∀ m, a.char_idx ≤ m → m < aligned.length →
      a.current_time ≤ (aligned.getD m dCT).start := h2
  have h4 : ∀ cue ∈ a.final_subtitles, cue.start ≤ a.current_time := h4
  by_cases hc : skip_chars.contains c = true
  · rw [step4_char_skip_eq aligned (a, o) c hc]
    exact ⟨⟨h1, h2, h3, h4, h5⟩, hacc⟩
  · rw [Bool.not_eq_true] at hc
    cases hfind : step4_find aligned a.char_idx c
        (min 100 (aligned.length - a.char_idx)) with
    | some k =>
      rw [step4_char_eq_found aligned a o c k hc hfind]
      have hkw := step4_find_lt aligned a.char_idx c _ k hfind
      have hpos : a.char_idx + k < aligned.length := by omega
      have hct : a.current_time ≤ (aligned.getD (a.char_idx + k) dCT).start :=
        h2 _ (by omega) hpos
      have hse := ct_ordered_se aligned h (a.char_idx + k) hpos
      refine ⟨⟨show a.char_idx + k + 1 ≤ aligned.length by omega, ?_, h3, ?_, h5⟩, ?_⟩
      · intro m hm hmlen
        have hm : a.char_idx + k + 1 ≤ m := hm
        exact ct_ordered_es aligned h (a.char_idx + k) m (by omega) hmlen
      · intro cue hcue
        exact le_trans (h4 cue hcue) (le_trans hct hse)
      · intro p hp
        injection hp with hp
        subst hp
      
        cases o with
        | none =>
          exact ⟨fun cue hcue => le_trans (h4 cue hcue) hct, hse, rfl⟩
        | some q =>
          obtain ⟨ha1, ha2, _⟩ := hacc q rfl
          exact ⟨ha1, le_trans ha2 (le_trans hct hse), rfl⟩
    | none =>
      by_cases hlt : a.char_idx < aligned.length
      · rw [step4_char_eq_consume aligned a o c hc hfind hlt]
        have hct : a.current_time ≤ (aligned.getD a.char_idx dCT).start :=
          h2 _ (le_refl _) hlt
        have hse := ct_ordered_se aligned h a.char_idx hlt
        refine ⟨⟨show a.char_idx + 1 ≤ aligned.length by omega, ?_, h3, ?_, h5⟩, ?_⟩
        · intro m hm hmlen
          have hm : a.char_idx + 1 ≤ m := hm
          exact ct_ordered_es aligned h a.char_idx m (by omega) hmlen
        · intro cue hcue
          exact le_trans (h4 cue hcue) (le_trans hct hse)
        · intro p hp
          injection hp with hp
          subst hp
          cases o with
          | none =>
            exact ⟨fun cue hcue => le_trans (h4 cue hcue) hct, hse, rfl⟩
          | some q =>
            obtain ⟨ha1, ha2, _⟩ := hacc q rfl
            exact ⟨ha1, le_trans ha2 (le_trans hct hse), rfl⟩
      · rw [step4_char_eq_exhaust aligned a o c hc hfind hlt]
        refine ⟨⟨h1, h2, h3, h4, h5⟩, ?_⟩
        intro p hp
        injection hp with hp
        subst hp
        cases o with
        | none =>
          exact ⟨h4, le_refl _, rfl⟩
        | some q =>
          obtain ⟨ha1, ha2, _⟩ := hacc q rfl
          exact ⟨ha1, ha2, rfl⟩

theorem step4_fold_inv (aligned : List CharTs) (h : CTOrdered aligned)
    (cs : List Char) :
    ∀ (st : Step4Acc × Option (ℚ × ℚ)), Step4AccInv aligned st →
      Step4AccInv aligned (cs.foldl (step4_char aligned) st) := by
  induction cs with
  | nil => intro st hinv; exact hinv
  | cons c cs ih =>
    intro st hinv
    exact ih _ (step4_char_inv aligned h st c hinv)

theorem step4_emit_inv (aligned : List CharTs) (line : List Char)
    (r : Step4Acc × Option (ℚ × ℚ)) (hinv : Step4AccInv aligned r) :
    Step4Inv aligned (step4_emit line r) := by
  cases hr : r.2 with
  | none =>
    rw [step4_emit_none line r hr]
    exact hinv.1
  | some p =>
    rw [step4_emit_some line r p hr]
    obtain ⟨⟨h1, h2, h3, h4, h5⟩, hacc⟩ := hinv
    obtain ⟨ha1, ha2, ha3⟩ := hacc p hr
    refine ⟨h1, h2, ?_, ?_, ?_⟩
    · rw [List.pairwise_append]
      refine ⟨h3, List.pairwise_singleton _ _, ?_⟩
      intro x hx y hy
      rw [List.mem_singleton] at hy
      subst hy
      exact ha1 x hx
    · intro cue hcue
      rw [List.mem_append] at hcue
      rcases hcue with hl | hr2
      · exact h4 cue hl
      · rw [List.mem_singleton] at hr2
        subst hr2
        exact ha2
    · intro cue hcue
      rw [List.mem_append] at hcue
      rcases hcue with hl | hr2
      · exact h5 cue hl
      · rw [List.mem_singleton] at hr2
        subst hr2
        show p.1 < if p.2 ≤ p.1 then p.1 + 1/2 else p.2
        by_cases hle : p.2 ≤ p.1
        · rw [if_pos hle]
          linarith
        · rw [if_neg hle]
          exact lt_of_not_le hle

theorem step4_line_inv (aligned : List CharTs) (h : CTOrdered aligned)
    (a : Step4Acc) (line : List Char) (hinv : Step4Inv aligned a) :
    Step4Inv aligned (step4_line aligned a line) := by
  unfold step4_line
  by_cases h0 : clean_line line = []
  · rw [if_pos h0]
    exact hinv
  · rw [if_neg h0]
    refine step4_emit_inv aligned line _ ?_
    refine step4_fold_inv aligned h (clean_line line) (a, none) ⟨hinv, ?_⟩
    intro p hp
    exact Option.noConfusion hp

theorem step4_init_inv (aligned : List CharTs) (h : CTOrdered aligned) :
    Step4Inv aligned ⟨[], 0, step4_ct0 aligned, 0, 0⟩ := by
  refine ⟨Nat.zero_le _, ?_, List.Pairwise.nil, ?_, ?_⟩
  · intro m _ hmlen
    cases aligned with
    | nil => exact absurd hmlen (by simp)
    | cons x xs =>
      show x.start ≤ ((x :: xs).getD m dCT).start
      have := ct_ordered_ss (x :: xs) h 0 m (Nat.zero_le _) hmlen
      simpa using this
  · intro cue hcue
    exact absurd hcue (List.not_mem_nil cue)
  · intro cue hcue
    exact absurd hcue (List.not_mem_nil cue)

theorem step4_align_inv (lines : List (List Char)) (aligned : List CharTs)
    (h : CTOrdered aligned) :
    Step4Inv aligned (step4_align_timestamps lines aligned) := by
  unfold step4_align_timestamps
  have hgen : ∀ (ls : List (List Char)) (a : Step4Acc), Step4Inv aligned a →
      Step4Inv aligned (ls.foldl (step4_line aligned) a) := by
    intro ls
    induction ls with
    | nil => intro a hinv; exact hinv
    | cons l ls ih =>
      intro a hinv
      exact ih _ (step4_line_inv aligned h a l hinv)
  exact hgen lines _ (step4_init_inv aligned h)

theorem map_range_succ_left {α : Type} (f : ℕ → α) (n : ℕ) :
    (List.range (n + 1)).map f = f 0 :: (List.range n).map fun i => f (i + 1) := by
  rw [List.range_succ_eq_map]
  simp [List.map_map, Function.comp]

theorem duration_frames_singleton (a tot : ℚ) (fps : ℕ) :
    duration_frames [a] tot fps = [py_round (tot * fps) - py_round (a * fps)] := by
  simp [duration_frames, List.range_succ, List.getD]

theorem duration_frames_cons (a b : ℚ) (t : List ℚ) (tot : ℚ) (fps : ℕ) :
    duration_frames (a :: b :: t) tot fps =
      (py_round (b * fps) - py_round (a * fps)) :: duration_frames (b :: t) tot fps := by
  unfold duration_frames
  simp only [List.length_cons]
  rw [map_range_succ_left]
  refine congrArg₂ _ ?_ ?_
  · simp [List.getD]
  · refine List.map_congr_left fun i _ => ?_
    simp only [List.getD_cons_succ, Nat.add_sub_cancel]
    by_cases h : i < t.length
    · rw [if_pos (by omega), if_pos h]
    · rw [if_neg (by omega), if_neg h]

theorem step4_find_zero (aligned_chars : List CharTs) (ci : Nat) (c : Char) :
    step4_find aligned_chars ci c 0 = none := by
  simp [step4_find]

theorem step4_char_empty_nonskip (a : Step4Acc) (acc0 : Option (ℚ × ℚ)) (c : Char)
    (hc : skip_chars.contains c = false) :
    step4_char [] (a, acc0) c =
      ({ a with fallback_count := a.fallback_count + 1 },
        some ((acc0.map Prod.fst).getD a.current_time, a.current_time)) := by
  unfold step4_char
  rw [hc]
  simp only [Bool.false_eq_true, if_false, List.length_nil, Nat.zero_sub,
    Nat.min_zero, step4_find_zero, Nat.not_lt_zero]
  cases acc0 <;> rfl

theorem step4_fold_empty (cs : List Char) (a : Step4Acc) (acc0 : Option (ℚ × ℚ)) :
    (cs.foldl (step4_char []) (a, acc0)).1.final_subtitles = a.final_subtitles ∧
    (cs.foldl (step4_char []) (a, acc0)).1.current_time = a.current_time ∧
    (cs.foldl (step4_char []) (a, acc0)).2 =
      (if cs.any (fun c => !(skip_chars.contains c)) then
        some ((acc0.map Prod.fst).getD a.current_time, a.current_time)
      else acc0) := by
  induction cs generalizing a acc0 with
  | nil => simp
  | cons c cs ih =>
    rw [List.foldl_cons]
    cases hc : skip_chars.contains c with
    | true =>
      rw [step4_char_skip_eq [] (a, acc0) c hc]
      rw [List.any_cons, hc]
      simpa only [Bool.not_true, Bool.false_or] using ih a acc0
    | false =>
      rw [step4_char_empty_nonskip a acc0 c hc]
      rw [List.any_cons, hc]
      simp only [Bool.not_false, Bool.true_or, if_true]
      have h3 := ih { a with fallback_count := a.fallback_count + 1 }
        (some ((Option.map Prod.fst acc0).getD a.current_time, a.current_time))
      refine ⟨h3.1, h3.2.1, ?_⟩
      rw [h3.2.2]
      cases hany : cs.any (fun c => !(skip_chars.contains c)) <;> simp

theorem step4_line_empty (a : Step4Acc) (line : List Char) :
    (step4_line [] a line).final_subtitles =
      a.final_subtitles ++
        (match empty_timeline_cue line with
         | some _ => [(⟨a.current_time, a.current_time + 1/2, line⟩ : Cue)]
         | none => []) ∧
    (step4_line [] a line).current_time = a.current_time := by
  unfold step4_line empty_timeline_cue
  by_cases h0 : clean_line line = []
  · rw [if_pos h0, h0]
    simp
  · rw [if_neg h0]
    have hf := step4_fold_empty (clean_line line) a none
    cases hany : (clean_line line).any (fun c => !(skip_chars.contains c)) with
    | false =>
      rw [hany] at hf
      simp only [Bool.false_eq_true, if_false] at hf ⊢
      rw [step4_emit_none line _ hf.2.2]
      exact ⟨by rw [hf.1, List.append_nil], hf.2.1⟩
    | true =>
      rw [hany] at hf
      simp only [if_true, Option.map_none, Option.getD_none] at hf
      rw [step4_emit_some line _ _ hf.2.2]
      simp only [if_true]
      constructor
      · rw [hf.1]
        simp [le_refl]
      · exact hf.2.1

theorem step4_lines_empty (lines : List (List Char)) (a : Step4Acc)
    (hct : a.current_time = 0) :
    (lines.foldl (step4_line []) a).final_subtitles =
      a.final_subtitles ++ lines.filterMap empty_timeline_cue := by
  induction lines generalizing a with
  | nil => simp
  | cons l ls ih =>
    rw [List.foldl_cons, List.filterMap_cons]
    have hl := step4_line_empty a l
    rw [ih _ (by rw [hl.2, hct]), hl.1, hct, List.append_assoc]
    cases hcue : empty_timeline_cue l with
    | none => rfl
    | some cue =>
      have : cue = ⟨0, 1/2, l⟩ := by
        unfold empty_timeline_cue at hcue
        by_cases h : (clean_line l).any (fun c => !(skip_chars.contains c))
        · rw [if_pos h] at hcue
          exact (Option.some.injEq _ _ ▸ hcue).symm
        · rw [if_neg h] at hcue
          cases hcue
      rw [this]
      norm_num

/-! ### The claims -/

/-- Claim C1 (amended): the frame counts of the Frame-Quantized Duration
Allocator telescope, so for every non-empty start-time sequence, total
duration and fps, their integer sum equals
`round(total_duration * fps) - round(first_start * fps)` with zero
cumulative drift; it equals `round(total_duration * fps)` exactly when
the rounded first start frame is `0`. -/
theorem claim_C1 (start_times : List ℚ) (tot : ℚ) (fps : ℕ)
    (h : start_times ≠ []) :
    (duration_frames start_times tot fps).sum =
      py_round (tot * fps) - py_round (start_times.headD 0 * fps) := by
  induction start_times with
  | nil => exact absurd rfl h
  | cons a t ih =>
    cases t with
    | nil => simp [duration_frames_singleton]
    | cons b t2 =>
      rw [duration_frames_cons, List.sum_cons, ih (by simp)]
      simp only [List.headD_cons]
      ring

/-- Counterexample to claim C1 as stated: a single segment starting at
`1.0` with total duration `2.0` and `fps = 24` yields frame counts
summing to `24`, not `round(2.0 * 24) = 48`. -/
theorem claim_C1_cx :
    ¬ (duration_frames [1] 2 24).sum = py_round (2 * 24) := by
  with_unfolding_all decide

/-- Witness instantiating claim C1 at the start times `[1, 2]`, total
duration `3` and `fps = 24`. -/
theorem claim_C1_witness :
    ([(1 : ℚ), 2] ≠ []) ∧
    (duration_frames [(1 : ℚ), 2] 3 24).sum =
      py_round (3 * ((24 : ℕ) : ℚ)) -
        py_round ([(1 : ℚ), 2].headD 0 * ((24 : ℕ) : ℚ)) :=
  ⟨by simp, claim_C1 [1, 2] 3 24 (by simp)⟩

/-- Claim C2 (amended): when the cleaned subtitle lines, concatenated,
equal the aligned timeline's characters and contain no punctuation or
whitespace at all, every character matches, so the coverage ratio is
exactly `1`.  (The spec's stronger statement fails: `total_script_chars`
counts punctuation, so inserted punctuation lowers the reported ratio
below 100%.) -/
theorem claim_C2 (lines : List (List Char)) (aligned : List CharTs)
    (hjoin : aligned.map (·.char) = (lines.map clean_line).flatten)
    (hns : ∀ c ∈ (lines.map clean_line).flatten, skip_chars.contains c = false) :
    (step4_align_timestamps lines aligned).matched_count = total_script_chars lines ∧
    (0 < total_script_chars lines → step4_coverage lines aligned = 1) := by
  have hdrop : (aligned.drop ((⟨[], 0, step4_ct0 aligned, 0, 0⟩ : Step4Acc).char_idx)).map
      (·.char) = (lines.map clean_line).flatten := by
    simpa using hjoin
  have h := step4_lines_exact aligned lines ⟨[], 0, step4_ct0 aligned, 0, 0⟩ hdrop hns
  have hm : (step4_align_timestamps lines aligned).matched_count =
      total_script_chars lines := by
    unfold step4_align_timestamps
    simpa using h
  refine ⟨hm, fun hpos => ?_⟩
  unfold step4_coverage
  rw [hm]
  have hne : (total_script_chars lines : ℚ) ≠ 0 := by
    exact_mod_cast hpos.ne'
  exact div_self hne

/-- Counterexample to claim C2 as stated: the line `a，b` differs from
the aligned timeline `ab` only by an inserted punctuation character,
which is excluded from matching, yet the reported coverage is not `1`
because the denominator counts the punctuation character. -/
theorem claim_C2_cx :
    (['a', '，', 'b'].filter (fun c => !(skip_chars.contains c))) = ['a', 'b'] ∧
    step4_coverage [['a', '，', 'b']] [⟨'a', 0, 1⟩, ⟨'b', 1, 2⟩] ≠ 1 := by
  with_unfolding_all decide

/-- Witness instantiating claim C2 at the line `ab` over the timeline
`a, b`. -/
theorem claim_C2_witness :
    (step4_align_timestamps [['a', 'b']] [⟨'a', 0, 1⟩, ⟨'b', 1, 2⟩]).matched_count =
        total_script_chars [['a', 'b']] ∧
    (0 < total_script_chars [['a', 'b']] →
      step4_coverage [['a', 'b']] [⟨'a', 0, 1⟩, ⟨'b', 1, 2⟩] = 1) :=
  claim_C2 [['a', 'b']] [⟨'a', 0, 1⟩, ⟨'b', 1, 2⟩] (by decide) (by decide)

/-- Claim C3: for every reference transcript and every (possibly empty)
word-timestamp list, the Force Aligner's output has exactly one entry
per newline-stripped reference character, and its `char` fields,
concatenated in order, are the newline-stripped reference; every
character therefore carries a concrete timestamp. -/
theorem claim_C3 (ws : List WordTs) (script : List Char) :
    (step2_force_alignment ws script).length =
        (script.filter (· ≠ '\n')).length ∧
    (step2_force_alignment ws script).map (·.char) =
      script.filter (· ≠ '\n') :=
  ⟨step2_force_alignment_length ws script, step2_force_alignment_chars ws script⟩

/-- Claim C4 (amended): over a time-ordered, non-overlapping aligned
character timeline, every cue the Subtitle Timestamp Mapper emits has
`start < end` (the `0.5` floor is applied whenever the computed end is
not after the start) and the cues are ordered by non-decreasing start
time.  (The spec's additional non-overlap assertion fails: the `0.5`
floor can push a cue's end past the next cue's start.) -/
theorem claim_C4 (lines : List (List Char)) (aligned : List CharTs)
    (h : CTOrdered aligned) :
    (∀ cue ∈ (step4_align_timestamps lines aligned).final_subtitles,
      cue.start < cue.«end») ∧
    List.Pairwise (fun x y : Cue => x.start ≤ y.start)
      (step4_align_timestamps lines aligned).final_subtitles := by
  have hinv := step4_align_inv lines aligned h
  exact ⟨hinv.2.2.2.2, hinv.2.2.1⟩

/-- Counterexample to claim C4 as stated: over the ordered timeline
`a:[0,0], b:[0.1,0.2]`, the first cue gets the `0.5` floor and ends at
`0.5`, after the second cue's start `0.1`, so the output cues overlap. -/
theorem claim_C4_cx :
    CTOrdered [⟨'a', 0, 0⟩, ⟨'b', 1/10, 2/10⟩] ∧
    ¬ List.Pairwise (fun x y : Cue => x.«end» ≤ y.start)
        (step4_align_timestamps [['a'], ['b']]
          [⟨'a', 0, 0⟩, ⟨'b', 1/10, 2/10⟩]).final_subtitles := by
  with_unfolding_all decide

/-- Witness instantiating claim C4 at the lines `a`, `b` over the
ordered timeline `a:[0,1], b:[2,3]`. -/
theorem claim_C4_witness :
    CTOrdered [⟨'a', 0, 1⟩, ⟨'b', 2, 3⟩] ∧
    ((∀ cue ∈ (step4_align_timestamps [['a'], ['b']]
        [⟨'a', 0, 1⟩, ⟨'b', 2, 3⟩]).final_subtitles,
        cue.start < cue.«end») ∧
      List.Pairwise (fun x y : Cue => x.start ≤ y.start)
        (step4_align_timestamps [['a'], ['b']]
          [⟨'a', 0, 1⟩, ⟨'b', 2, 3⟩]).final_subtitles) :=
  ⟨by with_unfolding_all decide,
    claim_C4 [['a'], ['b']] [⟨'a', 0, 1⟩, ⟨'b', 2, 3⟩]
      (by with_unfolding_all decide)⟩

/-- Claim C5: when the flattened word characters equal the
newline-stripped reference character for character, the Force Aligner
returns the flattened word-character timestamps verbatim, and the whole
difflib edit script consists of `equal` opcodes only. -/
theorem claim_C5 (ws : List WordTs) (script : List Char)
    (h : (whisper_char_list ws).map (·.char) = script.filter (· ≠ '\n')) :
    step2_force_alignment ws script = whisper_char_list ws ∧
    ∀ op ∈ get_opcodes ((whisper_char_list ws).map (·.char))
      (script.filter (· ≠ '\n')), op.tag = Tag.equal :=
  ⟨c5_core ws script h, c5_tags ws script h⟩

/-- Witness instantiating claim C5 at the single word `ab` over `[0,1]`
and the reference `ab`. -/
theorem claim_C5_witness :
    (whisper_char_list [⟨['a', 'b'], 0, 1⟩]).map (·.char) =
        (['a', 'b'].filter (· ≠ '\n')) ∧
    (step2_force_alignment [⟨['a', 'b'], 0, 1⟩] ['a', 'b'] =
        whisper_char_list [⟨['a', 'b'], 0, 1⟩] ∧
      ∀ op ∈ get_opcodes ((whisper_char_list [⟨['a', 'b'], 0, 1⟩]).map (·.char))
        (['a', 'b'].filter (· ≠ '\n')), op.tag = Tag.equal) :=
  ⟨by decide, claim_C5 [⟨['a', 'b'], 0, 1⟩] ['a', 'b'] (by decide)⟩

/-- Claim C6: whenever the clip is strictly longer than the reference,
the Offset Detector returns `0.0` immediately, for every correlation
array, sample rate and hint, before any correlation result is
consulted. -/
theorem claim_C6 (main_audio segment_audio corr : List ℚ) (sr : ℕ)
    (start_hint : ℚ) (h : main_audio.length < segment_audio.length) :
    find_audio_offset main_audio segment_audio corr sr start_hint = 0 := by
  unfold find_audio_offset
  rw [if_pos h]

/-- Witness instantiating claim C6 on an empty reference and a
one-sample clip. -/
theorem claim_C6_witness :
    (([] : List ℚ).length < [(0 : ℚ)].length) ∧
    find_audio_offset [] [(0 : ℚ)] [] 1 0 = 0 :=
  ⟨by decide, claim_C6 [] [0] [] 1 0 (by decide)⟩

/-- Claim C7: when each word satisfies `start ≤ end` and the words are
time-ordered and non-overlapping, every character timestamp the Force
Aligner outputs satisfies `start ≤ end`. -/
theorem claim_C7 (ws : List WordTs) (script : List Char) (h : WordsOrdered ws) :
    ∀ x ∈ step2_force_alignment ws script, x.start ≤ x.«end» := by
  unfold step2_force_alignment
  have htile := get_opcodes_tile ((whisper_char_list ws).map (·.char))
    (script.filter (· ≠ '\n'))
  rw [List.length_map] at htile
  exact align_ops_se (whisper_char_list ws) (script.filter (· ≠ '\n'))
    (script.filter (· ≠ '\n')).length (whisper_char_list_weak_mono ws h)
    _ 0 0 [] (step2_ct0 (whisper_char_list ws)) htile (by simp)

/-- Witness instantiating claim C7 at the single word `ab` over `[0,1]`
and the reference `axb`. -/
theorem claim_C7_witness :
    WordsOrdered [⟨['a', 'b'], 0, 1⟩] ∧
    ∀ x ∈ step2_force_alignment [⟨['a', 'b'], 0, 1⟩] ['a', 'x', 'b'],
      x.start ≤ x.«end» :=
  ⟨by with_unfolding_all decide,
    claim_C7 [⟨['a', 'b'], 0, 1⟩] ['a', 'x', 'b']
      (by with_unfolding_all decide)⟩

/-- Claim C8 (amended): with the default hint `0.0` the Offset Detector
selects the argmax of the correlation restricted to the window
`[0, min(len(main), 20 * sr))`, not of the entire correlation output,
and returns that index divided by the sample rate. -/
theorem claim_C8 (main_audio segment_audio corr : List ℚ) (sr : ℕ)
    (h1 : segment_audio.length ≤ main_audio.length)
    (h2 : 0 < min main_audio.length (20 * sr)) :
    find_audio_offset main_audio segment_audio corr sr 0 =
      (np_argmax (corr.take (min main_audio.length (20 * sr))) : ℚ) / (sr : ℚ) := by
  simp only [find_audio_offset]
  rw [if_neg (by omega)]
  have hhint : py_int_trunc ((0 : ℚ) * (sr : ℚ)) = 0 := by
    simp [py_int_trunc]
  have hwin : py_int_trunc (10 * (sr : ℚ)) = (10 * sr : ℕ) := by
    rw [py_int_trunc, if_pos (by positivity)]
    rw [show (10 : ℚ) * (sr : ℚ) = ((10 * sr : ℕ) : ℚ) by push_cast; ring]
    exact Int.floor_natCast _
  rw [hhint, hwin]
  have hnn : (0 : ℤ) ≤ ((10 * sr : ℕ) : ℤ) / 2 := by positivity
  have hss : max 0 ((0 : ℤ) - ((10 * sr : ℕ) : ℤ) / 2) = 0 := by omega
  rw [hss]
  have hse : min (main_audio.length : ℤ) (0 + ((10 * sr : ℕ) : ℤ) * 2) =
      ((min main_audio.length (20 * sr) : ℕ) : ℤ) := by
    push_cast
    omega
  rw [hse]
  rw [if_pos (by exact_mod_cast h2)]
  simp only [Int.toNat_zero, List.drop_zero, zero_add, Int.sub_zero]
  rw [Int.toNat_natCast]
  push_cast
  ring

/-- Counterexample to claim C8 as stated: with a 25-sample reference at
`sr = 1` and no hint, the search stops at index `20`, so the global
correlation peak at index `24` is not selected. -/
theorem claim_C8_cx :
    find_audio_offset (List.replicate 25 (0:ℚ)) []
        ((1:ℚ) :: (List.replicate 23 (0:ℚ) ++ [5])) 1 0 ≠
      ((np_argmax ((1:ℚ) :: (List.replicate 23 (0:ℚ) ++ [5])) : ℚ) /
        ((1:ℕ) : ℚ)) := by
  with_unfolding_all decide

/-- Witness instantiating claim C8 on a two-sample reference. -/
theorem claim_C8_witness :
    (([] : List ℚ).length ≤ [(0 : ℚ), 0].length ∧
      0 < min [(0 : ℚ), 0].length (20 * 1)) ∧
    find_audio_offset [(0 : ℚ), 0] [] [(1 : ℚ), 2] 1 0 =
      (np_argmax ([(1 : ℚ), 2].take (min [(0 : ℚ), 0].length (20 * 1))) : ℚ) /
        ((1 : ℕ) : ℚ) :=
  ⟨⟨by decide, by decide⟩, claim_C8 [0, 0] [] [1, 2] 1 (by decide) (by decide)⟩

/-- Claim C9 (amended): when the flattened character timeline itself is
time-ordered and non-overlapping (for example, when every transcribed
word is a single character), the Force Aligner's output has
non-decreasing `start` fields.  (The spec's hypothesis, ordering of the
word list alone, is not enough: all characters of one word share the
word's interval, and an insertion inside such a word emits a zero-width
entry at the word's end, before the word's remaining characters.) -/
theorem claim_C9 (ws : List WordTs) (script : List Char)
    (h : CTOrdered (whisper_char_list ws)) :
    List.Pairwise (fun x y : CharTs => x.start ≤ y.start)
      (step2_force_alignment ws script) := by
  unfold step2_force_alignment
  have htile := get_opcodes_tile ((whisper_char_list ws).map (·.char))
    (script.filter (· ≠ '\n'))
  rw [List.length_map] at htile
  refine align_ops_mono (whisper_char_list ws) (script.filter (· ≠ '\n'))
    (script.filter (· ≠ '\n')).length h _ 0 0 [] (step2_ct0 (whisper_char_list ws))
    htile ?_ (by simp) (by simp)
  intro m hm hmlen
  cases hwc : whisper_char_list ws with
  | nil =>
    rw [hwc] at hmlen
    simp at hmlen
  | cons w rest =>
    rw [hwc] at hmlen h
    show step2_ct0 (w :: rest) ≤ ((w :: rest).getD m dCT).start
    rw [step2_ct0]
    have := ct_ordered_ss (w :: rest) h 0 m (by omega) hmlen
    simpa using this

/-- Counterexample to claim C9 as stated: the single ordered word `ab`
over `[0,1]` against the reference `axb` produces the starts
`0, 1, 0` - the inserted `x` is stamped at the running time `1`, after
which `b` restarts at its word's start `0`. -/
theorem claim_C9_cx :
    WordsOrdered [⟨['a', 'b'], 0, 1⟩] ∧
    ¬ List.Pairwise (fun x y : CharTs => x.start ≤ y.start)
        (step2_force_alignment [⟨['a', 'b'], 0, 1⟩] ['a', 'x', 'b']) := by
  with_unfolding_all decide

/-- Witness instantiating claim C9 at two single-character words. -/
theorem claim_C9_witness :
    CTOrdered (whisper_char_list [⟨['a'], 0, 1⟩, ⟨['b'], 2, 3⟩]) ∧
    List.Pairwise (fun x y : CharTs => x.start ≤ y.start)
      (step2_force_alignment [⟨['a'], 0, 1⟩, ⟨['b'], 2, 3⟩] ['a', 'x', 'b']) :=
  ⟨by with_unfolding_all decide,
    claim_C9 [⟨['a'], 0, 1⟩, ⟨['b'], 2, 3⟩] ['a', 'x', 'b']
      (by with_unfolding_all decide)⟩

/-- Claim C10: on an empty aligned timeline the Subtitle Timestamp
Mapper terminates and emits, for each line with at least one
non-punctuation, non-whitespace character, exactly one `[0, 0.5]` cue,
and no cue for the other lines. -/
theorem claim_C10 (lines : List (List Char)) :
    (step4_align_timestamps lines []).final_subtitles =
      lines.filterMap empty_timeline_cue := by
  unfold step4_align_timestamps
  simpa using step4_lines_empty lines ⟨[], 0, step4_ct0 [], 0, 0⟩ rfl
